import Mathlib

/-!
A verification development for the storage-and-concurrency core of the
bustub educational database engine (repository `lambdaxing/bustub`):

* the multi-granularity lock manager (`src/concurrency/lock_manager.cpp`),
* the LRU-K replacer (`src/buffer/lru_k_replacer.cpp`),
* the buffer pool manager (`src/buffer/buffer_pool_manager_instance.cpp`),
* the B+-tree index (`src/storage/index/b_plus_tree.cpp` and the two
  tree-page files).

Each definition below is a shallow embedding of the corresponding C++
function; doc comments name the embedded function.  Machine integers are
modelled by `Nat`/`Int` (no overflow is relevant at the sizes involved),
page ids by `Int` (`INVALID_PAGE_ID = -1`), and the C++ container
operations by the corresponding list operations.  Definitions marked
"Modelled from the spec" embed declarations whose definitions live in
header files that are not part of the provided sources.
-/

namespace BusTub

/-! ## Lock manager: data model (`concurrency/lock_manager.cpp`) -/

/-- Lock modes of the lock manager: S, X, IS, IX, SIX. -/
inductive LockMode where
  | shared
  | exclusive
  | intentionShared
  | intentionExclusive
  | sharedIntentionExclusive
deriving DecidableEq, Repr, Fintype

/-- Isolation levels carried by a transaction. -/
inductive IsolationLevel where
  | readUncommitted
  | readCommitted
  | repeatableRead
deriving DecidableEq, Repr, Fintype

/-- Transaction states. -/
inductive TransactionState where
  | growing
  | shrinking
  | committed
  | aborted
deriving DecidableEq, Repr, Fintype

/-- Abort reasons raised by `TransactionAbortException`. -/
inductive AbortReason where
  | lockOnShrinking
  | upgradeConflict
  | lockSharedOnReadUncommitted
  | tableLockNotPresent
  | attemptedUnlockButNoLockHeld
  | tableUnlockedBeforeUnlockingRows
  | attemptedIntentionLockOnRow
  | incompatibleUpgrade
deriving DecidableEq, Repr

/-- Modelled from the spec: the lock-mode compatibility matrix of the lock
manager (`CompatibleMatrix` is declared in the lock manager header, which is
not among the provided sources; the spec gives the matrix with row = held
mode, column = requested mode). -/
def compatibleMatrix : LockMode → LockMode → Bool
  | .intentionShared, .exclusive => false
  | .intentionShared, _ => true
  | .intentionExclusive, .intentionShared => true
  | .intentionExclusive, .intentionExclusive => true
  | .intentionExclusive, _ => false
  | .shared, .intentionShared => true
  | .shared, .shared => true
  | .shared, _ => false
  | .sharedIntentionExclusive, .intentionShared => true
  | .sharedIntentionExclusive, _ => false
  | .exclusive, _ => false

/-- A `LockManager::LockRequest` as it sits in a per-resource
`LockRequestQueue` (the `oid_`/`rid_` fields are those of the queue's
resource and are kept implicit). -/
structure LockRequest where
  txnId : Nat
  lockMode : LockMode
  granted : Bool
deriving DecidableEq, Repr

/-- The pairwise scan inside `LockManager::CheckCompability`: for each
request `i` in the list and each request `j` strictly before `i`, require
`CompatibleMatrix[mode_i][mode_j]`. -/
def pairwiseCompatible : List LockRequest → Bool
  | [] => true
  | r :: rs => (rs.all fun later => compatibleMatrix later.lockMode r.lockMode) && pairwiseCompatible rs

/-- `LockManager::CheckCompability(request_queue, iter)` where `idx` is the
position of `iter` in the queue.  The loops range over the requests
strictly before `iter` only: the request at `iter` itself is never
examined, and no `granted_` flag is consulted. -/
def checkCompability (queue : List LockRequest) (idx : Nat) : Bool :=
  pairwiseCompatible (queue.take idx)

/-- The grant condition stated by the spec for step 5 of lock acquisition:
every request strictly earlier in the queue is granted and its mode is
compatible with the mode of the request at `idx`. -/
def grantableSpec (queue : List LockRequest) (idx : Nat) : Bool :=
  match queue[idx]? with
  | none => false
  | some r => (queue.take idx).all fun e => e.granted && compatibleMatrix e.lockMode r.lockMode

/-- The body of the grant loop of `LockManager::LockTable` (lines 88-97)
after the request has been enqueued at position `idx`: the caller leaves
the wait loop as soon as `CheckCompability` holds, then marks the request
granted.  `none` models a caller that is still waiting on the condition
variable. -/
def lockTableGrantStep (queue : List LockRequest) (idx : Nat) : Option (List LockRequest) :=
  if checkCompability queue idx then
    some ((queue.take idx) ++
      ((queue.drop idx).modifyHead fun r => { r with granted := true }))
  else
    none

/-- A transaction's lock bookkeeping: the five per-mode table lock sets and
the two per-table row lock sets of `Transaction`, plus id, isolation level
and state. -/
structure Txn where
  txnId : Nat
  isolation : IsolationLevel
  state : TransactionState
  sharedTableLockSet : List Nat
  exclusiveTableLockSet : List Nat
  intentionSharedTableLockSet : List Nat
  intentionExclusiveTableLockSet : List Nat
  sharedIntentionExclusiveTableLockSet : List Nat
  sharedRowLockSet : List (Nat × List Nat)
  exclusiveRowLockSet : List (Nat × List Nat)
deriving DecidableEq, Repr

/-- `m->count(oid) != 0 && m->at(oid).count(rid) != 0` on a per-table row
lock set. -/
def rowSetContains (m : List (Nat × List Nat)) (oid rid : Nat) : Bool :=
  match m.lookup oid with
  | some s => s.contains rid
  | none => false

/-- `m->count(oid) != 0 && m->at(oid).size() != 0` on a per-table row lock
set. -/
def rowSetNonempty (m : List (Nat × List Nat)) (oid : Nat) : Bool :=
  match m.lookup oid with
  | some s => !s.isEmpty
  | none => false

/-- `LockManager::CheckUnlockReasonability` (lines 259-298).  The result is
`none` when the check passes and `some reason` when the source sets the
transaction state to ABORTED and throws.  Note that on the table path the
membership test on the intention-exclusive table lock set is
`count(0) == 0`: the literal `0` of the source is reproduced. -/
def checkUnlockReasonability (txn : Txn) (oid rid : Nat) (row : Bool) : Option AbortReason :=
  if row then
    if rowSetContains txn.sharedRowLockSet oid rid || rowSetContains txn.exclusiveRowLockSet oid rid then
      none
    else
      some .attemptedUnlockButNoLockHeld
  else
    if txn.sharedTableLockSet.count oid == 0 && txn.exclusiveTableLockSet.count oid == 0 &&
        txn.intentionSharedTableLockSet.count oid == 0 &&
        txn.intentionExclusiveTableLockSet.count 0 == 0 &&
        txn.sharedIntentionExclusiveTableLockSet.count oid == 0 then
      some .attemptedUnlockButNoLockHeld
    else if rowSetNonempty txn.sharedRowLockSet oid || rowSetNonempty txn.exclusiveRowLockSet oid then
      some .tableUnlockedBeforeUnlockingRows
    else
      none

/-- Whether `txn` holds a table lock of any of the five modes on `oid`
(the property the spec's unlock check is about). -/
def holdsTableLock (txn : Txn) (oid : Nat) : Bool :=
  txn.sharedTableLockSet.contains oid || txn.exclusiveTableLockSet.contains oid ||
  txn.intentionSharedTableLockSet.contains oid || txn.intentionExclusiveTableLockSet.contains oid ||
  txn.sharedIntentionExclusiveTableLockSet.contains oid

/-- Result of `LockManager::CheckUpgradability` (lines 397-477):
`abortWith r` models setting ABORTED and throwing `r`; `assertFail` models
a failing `assert` in the source; `alreadyHeld`, `upgrade` and `fresh`
model the return codes 1, 0 and 2. -/
inductive UpgradeCheck where
  | abortWith (r : AbortReason)
  | assertFail
  | alreadyHeld
  | upgrade
  | fresh
deriving DecidableEq, Repr

/-- The `row == true` branch of `LockManager::CheckUpgradability`
(lines 399-433).  For a row X request the transaction must hold X, IX or
SIX on the table; for a row S request it must hold S, IS or IX — the
abort branch for S then asserts that the X table lock set does not contain
`oid`, so a transaction holding only X trips the assertion. -/
def checkUpgradabilityRow (txn : Txn) (lockMode : LockMode) (oid rid : Nat) : UpgradeCheck :=
  if lockMode = .exclusive ∧ txn.exclusiveTableLockSet.count oid = 0 ∧
      txn.intentionExclusiveTableLockSet.count oid = 0 ∧
      txn.sharedIntentionExclusiveTableLockSet.count oid = 0 then
    .abortWith .tableLockNotPresent
  else if lockMode = .shared ∧ txn.sharedTableLockSet.count oid = 0 ∧
      txn.intentionSharedTableLockSet.count oid = 0 ∧
      txn.intentionExclusiveTableLockSet.count oid = 0 then
    (if txn.exclusiveTableLockSet.count oid = 0 then .abortWith .tableLockNotPresent else .assertFail)
  else if rowSetContains txn.sharedRowLockSet oid rid then
    (if lockMode = .shared then .alreadyHeld
     else if lockMode = .exclusive then .upgrade
     else .assertFail)
  else if rowSetContains txn.exclusiveRowLockSet oid rid then
    (if lockMode = .exclusive then .alreadyHeld else .assertFail)
  else
    .fresh

/-- `LockManager::UpdateTransactionState` (lines 242-257): the
GROWING→SHRINKING transition applied after a successful unlock, as a
function of the isolation level, the released mode and the current state.
The three `if` statements of the source are applied in order. -/
def updateTransactionState (isolation : IsolationLevel) (unlockedMode : LockMode)
    (st : TransactionState) : TransactionState :=
  let st1 :=
    if isolation = .repeatableRead ∧ (unlockedMode = .shared ∨ unlockedMode = .exclusive) ∧
        st = .growing then .shrinking else st
  let st2 :=
    if isolation = .readCommitted ∧ unlockedMode = .exclusive ∧ st1 = .growing then .shrinking else st1
  if isolation = .readUncommitted ∧ unlockedMode = .exclusive ∧ st2 = .growing then .shrinking else st2

/-- The table branch of `LockManager::DeleteLockInTransaction`
(lines 381-394): erase `oid` from the lock set matching `lockedMode`. -/
def deleteTableLockInTransaction (txn : Txn) (lockedMode : LockMode) (oid : Nat) : Txn :=
  match lockedMode with
  | .shared => { txn with sharedTableLockSet := txn.sharedTableLockSet.erase oid }
  | .intentionShared => { txn with intentionSharedTableLockSet := txn.intentionSharedTableLockSet.erase oid }
  | .intentionExclusive => { txn with intentionExclusiveTableLockSet := txn.intentionExclusiveTableLockSet.erase oid }
  | .sharedIntentionExclusive =>
      { txn with sharedIntentionExclusiveTableLockSet := txn.sharedIntentionExclusiveTableLockSet.erase oid }
  | .exclusive => { txn with exclusiveTableLockSet := txn.exclusiveTableLockSet.erase oid }

/-- Erase `rid` from the `oid` entry of a row lock set and drop the entry
when it becomes empty (the row branch of `DeleteLockInTransaction`,
lines 368-380). -/
def eraseRowLock (m : List (Nat × List Nat)) (oid rid : Nat) : List (Nat × List Nat) :=
  m.foldr (fun p acc =>
    if p.1 = oid then
      (if (p.2.erase rid).isEmpty then acc else (oid, p.2.erase rid) :: acc)
    else p :: acc) []

/-- The row branch of `LockManager::DeleteLockInTransaction`. -/
def deleteRowLockInTransaction (txn : Txn) (lockedMode : LockMode) (oid rid : Nat) : Txn :=
  match lockedMode with
  | .shared => { txn with sharedRowLockSet := eraseRowLock txn.sharedRowLockSet oid rid }
  | .exclusive => { txn with exclusiveRowLockSet := eraseRowLock txn.exclusiveRowLockSet oid rid }
  | _ => txn

/-- `LockManager::UnlockTable` (lines 180-209): run the unlock check (an
abort sets the state to ABORTED and reports the reason), look up the
transaction's request in the queue, remember its mode, erase the request
and the transaction's bookkeeping, and finally apply
`UpdateTransactionState`.  The source dereferences the lookup iterator
unconditionally, so a missing request is undefined behaviour; that case is
modelled by the outer `none`. -/
def unlockTable (txn : Txn) (oid : Nat) (queue : List LockRequest) :
    Option (Except (Txn × AbortReason) (Txn × List LockRequest)) :=
  match checkUnlockReasonability txn oid 0 false with
  | some r => some (.error ({ txn with state := .aborted }, r))
  | none =>
    match queue.find? (fun req => req.txnId == txn.txnId) with
    | none => none
    | some req =>
      let txn1 := deleteTableLockInTransaction txn req.lockMode oid
      let queue1 := queue.eraseP (fun r => r.txnId == txn.txnId)
      let txn2 := { txn1 with state := updateTransactionState txn1.isolation req.lockMode txn1.state }
      some (.ok (txn2, queue1))

/-- `LockManager::UnlockRow` (lines 211-240), analogously. -/
def unlockRow (txn : Txn) (oid rid : Nat) (queue : List LockRequest) :
    Option (Except (Txn × AbortReason) (Txn × List LockRequest)) :=
  match checkUnlockReasonability txn oid rid true with
  | some r => some (.error ({ txn with state := .aborted }, r))
  | none =>
    match queue.find? (fun req => req.txnId == txn.txnId) with
    | none => none
    | some req =>
      let txn1 := deleteRowLockInTransaction txn req.lockMode oid rid
      let queue1 := queue.eraseP (fun r => r.txnId == txn.txnId)
      let txn2 := { txn1 with state := updateTransactionState txn1.isolation req.lockMode txn1.state }
      some (.ok (txn2, queue1))

/-- A transaction holding no locks at all, used to build concrete
scenarios. -/
def emptyTxn (id : Nat) (iso : IsolationLevel) : Txn :=
  ⟨id, iso, .growing, [], [], [], [], [], [], []⟩

/-! ## LRU-K replacer (`buffer/lru_k_replacer.cpp`)

The C++ replacer keeps `access_history_`, a `std::list` of
`(frame_id, vector<size_t>)` pairs in eviction order, where the vector has
size `k+1`, entry `i` (for `1 ≤ i ≤ k`) is the `i`-th most recent access
timestamp of the frame and `0` means "no such access".  The vector is
modelled by a list `hist` of length `k` with `hist[i-1]` playing the role
of entry `i`; timestamps start at `1`, so `0` still means "absent". -/

/-- One entry of `access_history_`. -/
structure FrameRecord where
  frameId : Nat
  hist : List Nat
deriving DecidableEq, Repr

/-- `second[k_]` of an `access_history_` entry (also `second.back()`): the
`k`-th most recent access timestamp, `0` if fewer than `k` accesses are
recorded. -/
def lastSlot (k : Nat) (h : List Nat) : Nat := h.getD (k - 1) 0

/-- The most recent access timestamp of an entry (`second[1]`). -/
def mostRecent (h : List Nat) : Nat := h.getD 0 0

/-- The earliest access timestamp still recorded for an entry: the last
nonzero element of its history. -/
def firstStamp (h : List Nat) : Nat := (h.filter fun x => x ≠ 0).getLastD 0

/-- The state of `LRUKReplacer`: `k_`, `replacer_size_`,
`current_timestamp_`, the ordered `access_history_`, and the key sets of
`evictable_map_` and `non_evictable_map_` (the mapped iterators are
implicit in the list). -/
structure LRUKReplacer where
  k : Nat
  replacerSize : Nat
  currentTimestamp : Nat
  accessHistory : List FrameRecord
  evictableIds : List Nat
  nonEvictableIds : List Nat
deriving DecidableEq, Repr

/-- `LRUKReplacer(num_frames, k)`. -/
def LRUKReplacer.init (numFrames k : Nat) : LRUKReplacer :=
  ⟨k, numFrames, 0, [], [], []⟩

/-- The `emplace` into `access_history_` in `RecordAccess` for a frame not
seen before: a fresh all-zero record is inserted immediately before the
first entry whose `second.back()` is nonzero (at the end if there is
none). -/
def insertNewRecord (k fid : Nat) : List FrameRecord → List FrameRecord
  | [] => [⟨fid, List.replicate k 0⟩]
  | r :: rs =>
    if lastSlot k r.hist ≠ 0 then ⟨fid, List.replicate k 0⟩ :: r :: rs
    else r :: insertNewRecord k fid rs

/-- The re-sort step of `RecordAccess` (lines 64-70): once the updated
record has a finite K-distance (`second[k_] != 0`), it is spliced forward
past every later entry whose `second[k_]` is zero or smaller than its
own. -/
def spliceRecord (k : Nat) (fid : Nat) : List FrameRecord → List FrameRecord
  | [] => []
  | r :: rs =>
    if r.frameId = fid then
      let keep := fun e => lastSlot k e.hist = 0 ∨ lastSlot k e.hist < lastSlot k r.hist
      rs.takeWhile (fun e => decide (keep e)) ++ r :: rs.dropWhile (fun e => decide (keep e))
    else r :: spliceRecord k fid rs

/-- Look up the history of frame `fid` in an access-history list
(the iterator stored in the maps of the source). -/
def histOf (l : List FrameRecord) (fid : Nat) : List Nat :=
  match l.find? (fun r => r.frameId == fid) with
  | some r => r.hist
  | none => []

/-- `LRUKReplacer::RecordAccess(frame_id)` (lines 37-73).  The
`BUSTUB_ASSERT(frame_id < replacer_size_)` of the source is a caller
precondition and is not re-modelled here.  A frame not yet tracked first
receives an all-zero record (inserted at the end of the infinite-distance
region) and joins `non_evictable_map_`; then the shift
`record[i] = record[i-1]` and `record[1] = ++current_timestamp_` is
applied, and if the record's `second[k_]` became nonzero it is spliced
into the finite-distance region. -/
def recordAccess (st : LRUKReplacer) (fid : Nat) : LRUKReplacer :=
  let tracked := st.evictableIds.contains fid || st.nonEvictableIds.contains fid
  let ah := if tracked then st.accessHistory else insertNewRecord st.k fid st.accessHistory
  let ne := if tracked then st.nonEvictableIds else fid :: st.nonEvictableIds
  let ts := st.currentTimestamp + 1
  let newHist := ts :: (histOf ah fid).take (st.k - 1)
  let ah2 := ah.map fun r => if r.frameId = fid then ⟨fid, newHist⟩ else r
  let ah3 := if lastSlot st.k newHist ≠ 0 then spliceRecord st.k fid ah2 else ah2
  ⟨st.k, st.replacerSize, ts, ah3, st.evictableIds, ne⟩

/-- `LRUKReplacer::SetEvictable(frame_id, set_evictable)` (lines 75-88). -/
def setEvictable (st : LRUKReplacer) (fid : Nat) (b : Bool) : LRUKReplacer :=
  if b ∧ ¬st.evictableIds.contains fid ∧ st.nonEvictableIds.contains fid then
    { st with evictableIds := fid :: st.evictableIds,
              nonEvictableIds := st.nonEvictableIds.erase fid }
  else if ¬b ∧ st.evictableIds.contains fid ∧ ¬st.nonEvictableIds.contains fid then
    { st with nonEvictableIds := fid :: st.nonEvictableIds,
              evictableIds := st.evictableIds.erase fid }
  else st

/-- `LRUKReplacer::Evict(frame_id)` (lines 20-35): scan `access_history_`
for the first entry whose frame is in `evictable_map_`; on success erase
the frame from the map and its record from the list and report its id;
report `none` ( `false` ) when no frame can be evicted. -/
def evict (st : LRUKReplacer) : Option (Nat × LRUKReplacer) :=
  match st.accessHistory.find? (fun r => st.evictableIds.contains r.frameId) with
  | none => none
  | some r =>
    some (r.frameId,
      { st with
          evictableIds := st.evictableIds.erase r.frameId,
          accessHistory := st.accessHistory.eraseP (fun e => st.evictableIds.contains e.frameId) })

/-- Replacer states reachable from a freshly constructed replacer by the
embedded operations (`RecordAccess` guarded by its
`frame_id < replacer_size_` assertion, `SetEvictable`, `Evict`).
`RecordAccess` writes `record[1]` of a `k+1`-element vector, so `k = 0`
is outside the constructor's contract. -/
inductive LRUKReachable : LRUKReplacer → Prop where
  | init (numFrames k : Nat) (hk : 1 ≤ k) : LRUKReachable (LRUKReplacer.init numFrames k)
  | record {st : LRUKReplacer} (fid : Nat) (hfid : fid < st.replacerSize) :
      LRUKReachable st → LRUKReachable (recordAccess st fid)
  | setEv {st : LRUKReplacer} (fid : Nat) (b : Bool) (hfid : fid < st.replacerSize) :
      LRUKReachable st → LRUKReachable (setEvictable st fid b)
  | evictStep {st : LRUKReplacer} {fid : Nat} {st' : LRUKReplacer}
      (h : evict st = some (fid, st')) : LRUKReachable st → LRUKReachable st'

/-- Entry `h` "beats" entry `g` for eviction priority, in the sense of
the backward-K-distance rule the replacer implements: an entry with fewer
than `K` recorded accesses (`lastSlot = 0`, distance +∞) beats every
finite-distance entry; of two infinite-distance entries, the one whose
first recorded access is earlier wins; of two finite-distance entries,
the one whose K-th most recent access has the smaller timestamp (hence
the larger backward K-distance) wins. -/
def beats (k : Nat) (h g : List Nat) : Prop :=
  (lastSlot k h = 0 ∧ lastSlot k g ≠ 0) ∨
  (lastSlot k h = 0 ∧ lastSlot k g = 0 ∧ firstStamp h < firstStamp g) ∨
  (lastSlot k h ≠ 0 ∧ lastSlot k g ≠ 0 ∧ lastSlot k h < lastSlot k g)

/-- A well-formed access history: a strictly decreasing block of positive
timestamps (most recent first) followed by zero padding. -/
def HistShape (h : List Nat) : Prop :=
  ∃ nz zs, h = nz ++ zs ∧ List.Chain' (· > ·) nz ∧ (∀ x ∈ nz, 0 < x) ∧ (∀ x ∈ zs, x = 0)

/-- The invariant every reachable replacer state satisfies: histories have
length `k`, are well formed, start with a genuine access, and contain only
timestamps up to `current_timestamp_`; nonzero timestamps are never shared
between entries; frame ids are unique; `access_history_` is sorted by
eviction priority (every entry beats all later ones); the two maps are
duplicate-free, disjoint and together cover exactly the tracked frames. -/
structure LRUKInv (st : LRUKReplacer) : Prop where
  kpos : 1 ≤ st.k
  len : ∀ r ∈ st.accessHistory, r.hist.length = st.k
  shape : ∀ r ∈ st.accessHistory, HistShape r.hist
  headPos : ∀ r ∈ st.accessHistory, r.hist.headD 0 ≠ 0
  le : ∀ r ∈ st.accessHistory, ∀ x ∈ r.hist, x ≤ st.currentTimestamp
  stampsDisj : st.accessHistory.Pairwise
    (fun a b => ∀ x, x ≠ 0 → ¬(x ∈ a.hist ∧ x ∈ b.hist))
  framesNodup : (st.accessHistory.map FrameRecord.frameId).Nodup
  sorted : st.accessHistory.Pairwise (fun a b => beats st.k a.hist b.hist)
  evNodup : st.evictableIds.Nodup
  neNodup : st.nonEvictableIds.Nodup
  evNeDisj : ∀ f, f ∈ st.evictableIds → f ∉ st.nonEvictableIds
  trackedIff : ∀ f, (f ∈ st.evictableIds ∨ f ∈ st.nonEvictableIds) ↔
    f ∈ st.accessHistory.map FrameRecord.frameId

/-! ## Buffer pool manager (`buffer/buffer_pool_manager_instance.cpp`) -/

/-- A `Page` header: `page_id_`, `pin_count_`, `is_dirty_`; the byte
contents are abstracted into a single word `data`. -/
structure Page where
  pageId : Int
  pinCount : Nat
  isDirty : Bool
  data : Nat
deriving DecidableEq, Repr

/-- `INVALID_PAGE_ID` from `common/config.h`. -/
def INVALID_PAGE_ID : Int := -1

/-- Modelled from the spec: `ResetPageWithFrameId` is declared in the
buffer pool header (not among the provided sources); per the spec's
`new_page` step it clears the page memory and metadata. -/
def resetPage : Page := ⟨INVALID_PAGE_ID, 0, false, 0⟩

/-- The state of `BufferPoolManagerInstance`: the frame array `pages_`
(indexed by frame id), the page table (the extendible hash table
`page_table_` abstracted to the map it implements), the replacer, the
free list, `next_page_id_`, and the disk contents. -/
structure BufferPoolManager where
  poolSize : Nat
  pages : List Page
  pageTable : List (Int × Nat)
  replacer : LRUKReplacer
  freeList : List Nat
  nextPageId : Int
  disk : List (Int × Nat)
deriving DecidableEq, Repr

/-- Update an association list at a key (the behaviour of
`ExtendibleHashTable::Insert`, which overwrites an existing key). -/
def assocInsert (m : List (Int × Nat)) (k : Int) (v : Nat) : List (Int × Nat) :=
  if m.any (fun p => p.1 == k) then m.map (fun p => if p.1 == k then (k, v) else p)
  else m ++ [(k, v)]

/-- Remove a key from an association list (`ExtendibleHashTable::Remove`). -/
def assocRemove (m : List (Int × Nat)) (k : Int) : List (Int × Nat) :=
  m.filter (fun p => p.1 != k)

/-- Replace the frame at index `fid` of the frame array. -/
def setFrame (pages : List Page) (fid : Nat) (p : Page) : List Page :=
  pages.set fid p

/-- Read the frame at index `fid` (frame ids handed out by the free list
and the replacer are always in range). -/
def getFrame (pages : List Page) (fid : Nat) : Page :=
  pages.getD fid resetPage

/-- Write a page to disk (`DiskManager::WritePage`). -/
def diskWrite (disk : List (Int × Nat)) (pid : Int) (d : Nat) : List (Int × Nat) :=
  assocInsert disk pid d

/-- `BufferPoolManagerInstance::AllocatePage` (line 201):
`next_page_id_++`. -/
def allocatePage (bpm : BufferPoolManager) : Int × BufferPoolManager :=
  (bpm.nextPageId, { bpm with nextPageId := bpm.nextPageId + 1 })

/-- `BufferPoolManagerInstance::NewPgImp(page_id)` (lines 40-79).  The
first component is what the call writes through the `page_id` out
parameter (`none`: the out parameter is left untouched — the source only
nulls its local copy of the pointer); the second is the returned frame id
(`none` models returning `nullptr`). -/
def newPgImp (bpm : BufferPoolManager) : Option Int × Option Nat × BufferPoolManager :=
  match bpm.freeList with
  | fid :: rest =>
    let bpm1 := { bpm with freeList := rest }
    let (pid, bpm2) := allocatePage bpm1
    let bpm3 := { bpm2 with
      pageTable := assocInsert bpm2.pageTable pid fid,
      replacer := setEvictable (recordAccess bpm2.replacer fid) fid false,
      pages :=
        let p := getFrame bpm2.pages fid
        setFrame bpm2.pages fid { p with pageId := pid, pinCount := p.pinCount + 1 } }
    (some pid, some fid, bpm3)
  | [] =>
    match evict bpm.replacer with
    | none => (none, none, bpm)
    | some (fid, replacer1) =>
      let oldPage := getFrame bpm.pages fid
      let disk1 := if oldPage.isDirty then diskWrite bpm.disk oldPage.pageId oldPage.data else bpm.disk
      let bpm1 := { bpm with
        replacer := replacer1,
        disk := disk1,
        pageTable := assocRemove bpm.pageTable oldPage.pageId,
        pages := setFrame bpm.pages fid resetPage }
      let (pid, bpm2) := allocatePage bpm1
      let bpm3 := { bpm2 with
        pageTable := assocInsert bpm2.pageTable pid fid,
        replacer := setEvictable (recordAccess bpm2.replacer fid) fid false,
        pages :=
          let p := getFrame bpm2.pages fid
          setFrame bpm2.pages fid { p with pageId := pid, pinCount := p.pinCount + 1 } }
      (some pid, some fid, bpm3)

/-! ## B+-tree index (`storage/index/b_plus_tree.cpp`, tree page files)

The page graph of the source (pages linked by `page_id`, navigated through
the buffer pool) is embedded as an inductive tree that carries the page
ids: a leaf page holds its `page_id`, its `array_` of key/value entries
and its `next_page_id_`; an internal page holds its `page_id` and its
`array_` of (key, child) entries where — as in the source — the key of
entry 0 is physically present but never consulted.  Keys and values are
the integer keys/RIDs of the instantiated `GenericComparator` templates;
`comparator(a,b) == 1` is `a > b` and `== 0` is `a = b`.  Parent pointers
are not represented: the recursion plays the role of the ancestor stack
that the source keeps in the transaction's page set. -/

mutual
/-- A B+-tree page (`BPlusTreeLeafPage` / `BPlusTreeInternalPage`). -/
inductive BTree where
  | leaf (pid : Int) (kvs : List (Int × Int)) (next : Int) : BTree
  | node (pid : Int) (es : Entries) : BTree

/-- The entry array of an internal page. -/
inductive Entries where
  | nil : Entries
  | cons (key : Int) (child : BTree) (rest : Entries) : Entries
end

/-- `GetSize()` of an internal page: the number of entries, entry 0
included. -/
def Entries.size : Entries → Nat
  | .nil => 0
  | .cons _ _ r => 1 + r.size

/-- Keep the first `n` entries (the old page's half of `SplitPage`). -/
def Entries.takeE : Nat → Entries → Entries
  | 0, _ => .nil
  | _, .nil => .nil
  | n + 1, .cons k c r => .cons k c (r.takeE n)

/-- Drop the first `n` entries (the half `SplitPage` moves to the new
page; the key of the first moved entry becomes the promoted separator). -/
def Entries.dropE : Nat → Entries → Entries
  | 0, es => es
  | _, .nil => .nil
  | n + 1, .cons _ _ r => r.dropE n

/-- `KeyAt(0)` of an internal page. -/
def Entries.headKey : Entries → Int
  | .nil => 0
  | .cons k _ _ => k

/-- Modelled from the spec: `BPlusTreePage::GetMinSize` (its definition
lives in `b_plus_tree_page.cpp`, which is not among the provided sources);
the spec fixes the minimum size at ⌈max_size/2⌉ for leaves and internal
pages alike, and `SplitPage` keeps `GetMinSize()` entries in the old
page. -/
def minSize (maxSize : Nat) : Nat := (maxSize + 1) / 2

/-- `BPlusTreeLeafPage::Find` (leaf page lines 81-89): linear scan for an
exact key match. -/
def leafFind (kvs : List (Int × Int)) (key : Int) : Option Int :=
  match kvs with
  | [] => none
  | (k, v) :: rest => if k = key then some v else leafFind rest key

/-- The insertion scan of `BPlusTreeLeafPage::Insert` (lines 97-109): the
new pair goes immediately before the first entry whose key is greater
(at the end if there is none). -/
def leafInsertKV (kvs : List (Int × Int)) (key val : Int) : List (Int × Int) :=
  match kvs with
  | [] => [(key, val)]
  | (k, v) :: rest =>
    if k > key then (key, val) :: (k, v) :: rest
    else (k, v) :: leafInsertKV rest key val

/-- `BPlusTreeLeafPage::FindIndex` (lines 131-140): the index of the entry
whose key equals `key`, or `GetSize()` when no entry matches. -/
def leafFindIndex (kvs : List (Int × Int)) (key : Int) : Nat :=
  match kvs with
  | [] => 0
  | (k, _) :: rest => if key = k then 0 else 1 + leafFindIndex rest key

/-- The scan of `BPlusTreeInternalPage::InsertToRight` over the entries
from index 1 on: insert before the first key greater than the new one. -/
def insertToRightAux : Entries → Int → BTree → Entries
  | .nil, k, c => .cons k c .nil
  | .cons k1 c1 r, k, c =>
    if k1 > k then .cons k c (.cons k1 c1 r) else .cons k1 c1 (insertToRightAux r k c)

/-- `BPlusTreeInternalPage::InsertToRight` (lines 67-83): entry 0 is
skipped, then `insertToRightAux` places the new entry. -/
def insertToRight : Entries → Int → BTree → Entries
  | .nil, k, c => .cons k c .nil
  | .cons k0 c0 rest, k, c => .cons k0 c0 (insertToRightAux rest k c)

mutual
/-- The descent loop of `BPlusTree::FindLeafPage` (lines 412-427) combined
with `BPlusTreeInternalPage::FindChild`: starting from a page, walk down
to the leaf page responsible for `key` and return that leaf's
(`page_id`, `array_`, `next_page_id_`). -/
def findLeafT : BTree → Int → Int × List (Int × Int) × Int
  | .leaf pid kvs nxt, _ => (pid, kvs, nxt)
  | .node _ es, key => findLeafE es key

/-- `FindChild`'s scan (internal page lines 56-64) applied to the entries
from index `i-1` on: the head entry's child is `ValueAt(i-1)`; stop at the
first separator greater than `key`, else move right. -/
def findLeafE : Entries → Int → Int × List (Int × Int) × Int
  | .nil, _ => (INVALID_PAGE_ID, [], INVALID_PAGE_ID)
  | .cons _ c .nil, key => findLeafT c key
  | .cons _ c (.cons k1 c1 r), key =>
    if k1 > key then findLeafT c key else findLeafE (.cons k1 c1 r) key
end

mutual
/-- `BPlusTree::Insert` below one page (lines 63-90 for the leaf step,
`InsertInParent` lines 176-206 for the parent steps, `SplitPage`
lines 211-231 for both splits).  Returns the duplicate-rejection flag of
`LeafPage::Insert`, the updated page, the (separator, new right page)
pair handed to `InsertInParent` when this page split, and the page-id
allocator (`CrabbingProtocolNewPage` draws fresh page ids from the buffer
pool). -/
def insertT (leafMax internalMax : Nat) (key val : Int) :
    BTree → Int → Bool × BTree × Option (Int × BTree) × Int
  | .leaf pid kvs nxt, alloc =>
    if (leafFind kvs key).isSome then (false, .leaf pid kvs nxt, none, alloc)
    else
      let kvs1 := leafInsertKV kvs key val
      if kvs1.length = leafMax + 1 then
        let restSize := minSize leafMax
        let left := kvs1.take restSize
        let right := kvs1.drop restSize
        (true, .leaf pid left alloc, some ((right.headD (0, 0)).1, .leaf alloc right nxt), alloc + 1)
      else (true, .leaf pid kvs1 nxt, none, alloc)
  | .node pid es, alloc =>
    let r := insertE leafMax internalMax key val es alloc
    match r.2.2.1 with
    | none => (r.1, .node pid r.2.1, none, r.2.2.2)
    | some (sep, nc) =>
      let es2 := insertToRight r.2.1 sep nc
      if es2.size = internalMax + 1 then
        let restSize := minSize internalMax
        let left := es2.takeE restSize
        let right := es2.dropE restSize
        (r.1, .node pid left, some (right.headKey, .node r.2.2.2 right), r.2.2.2 + 1)
      else (r.1, .node pid es2, none, r.2.2.2)

/-- Walk the entries of an internal page to the child `FindChild` selects,
recurse into it, and rebuild the entry list with the updated child in
place; the child's split information is passed up to the node level,
where `InsertInParent` applies `InsertToRight`. -/
def insertE (leafMax internalMax : Nat) (key val : Int) :
    Entries → Int → Bool × Entries × Option (Int × BTree) × Int
  | .nil, alloc => (false, .nil, none, alloc)
  | .cons k0 c0 .nil, alloc =>
    let r := insertT leafMax internalMax key val c0 alloc
    (r.1, .cons k0 r.2.1 .nil, r.2.2.1, r.2.2.2)
  | .cons k0 c0 (.cons k1 c1 rs), alloc =>
    if k1 > key then
      let r := insertT leafMax internalMax key val c0 alloc
      (r.1, .cons k0 r.2.1 (.cons k1 c1 rs), r.2.2.1, r.2.2.2)
    else
      let r := insertE leafMax internalMax key val (.cons k1 c1 rs) alloc
      (r.1, .cons k0 c0 r.2.1, r.2.2.1, r.2.2.2)
end

/-- The whole index: `root_page_id_` (`none` models `INVALID_PAGE_ID`),
the two size limits of the constructor, and the buffer pool's page-id
allocator. -/
structure BPlusTree where
  root : Option BTree
  leafMaxSize : Nat
  internalMaxSize : Nat
  nextAlloc : Int

/-- `BPlusTree::Insert` (lines 63-90): on an empty tree first create a
fresh empty root leaf, then run the leaf insert; a split bubbling out of
the root makes a new root with the two halves as its children
(`InsertInParent` lines 180-191; the key of entry 0 of the new root is
never written and is modelled by `0`). -/
def BPlusTree.insert (t : BPlusTree) (key val : Int) : Bool × BPlusTree :=
  let p :=
    match t.root with
    | none => ((BTree.leaf t.nextAlloc [] INVALID_PAGE_ID : BTree), t.nextAlloc + 1)
    | some r => (r, t.nextAlloc)
  let r := insertT t.leafMaxSize t.internalMaxSize key val p.1 p.2
  match r.2.2.1 with
  | none => (r.1, { t with root := some r.2.1, nextAlloc := r.2.2.2 })
  | some (sep, nc) =>
    (r.1, { t with root := some (.node r.2.2.2 (.cons 0 r.2.1 (.cons sep nc .nil))),
                   nextAlloc := r.2.2.2 + 1 })

/-- `BPlusTree::GetValue` (lines 35-51): find the leaf, then
`LeafPage::Find`. -/
def BPlusTree.getValue (t : BPlusTree) (key : Int) : Option Int :=
  match t.root with
  | none => none
  | some r => leafFind (findLeafT r key).2.1 key

/-- `BPlusTree::Begin(key)` (lines 136-152): find the leaf, call
`FindIndex`, and return the end iterator (modelled by `none`) when the
index equals the leaf's size, else an iterator on that leaf page at that
index. -/
def BPlusTree.beginKey (t : BPlusTree) (key : Int) : Option (Int × Nat) :=
  match t.root with
  | none => none
  | some r =>
    let l := findLeafT r key
    let idx := leafFindIndex l.2.1 key
    if idx = l.2.1.length then none else some (l.1, idx)

/-- A fresh empty index (`root_page_id_ = INVALID_PAGE_ID`); page ids are
drawn starting from 1 (page 0 is the header page). -/
def BPlusTree.new (leafMax internalMax : Nat) : BPlusTree :=
  ⟨none, leafMax, internalMax, 1⟩

mutual
/-- All leaf pages below a page, left to right:
(`page_id`, keys, `next_page_id_`). -/
def collectLeaves : BTree → List (Int × List Int × Int)
  | .leaf pid kvs nxt => [(pid, kvs.map Prod.fst, nxt)]
  | .node _ es => collectLeavesE es

def collectLeavesE : Entries → List (Int × List Int × Int)
  | .nil => []
  | .cons _ c r => collectLeaves c ++ collectLeavesE r
end

mutual
/-- The height of a page: a leaf counts 1, an internal page one more than
the tallest child. -/
def heightT : BTree → Nat
  | .leaf _ _ _ => 1
  | .node _ es => 1 + heightE es

def heightE : Entries → Nat
  | .nil => 0
  | .cons _ c r => max (heightT c) (heightE r)
end

/-- The `find_min` descent of `FindLeafPage` (line 420): always follow
`ValueAt(0)` down to the leftmost leaf, as `Begin()` does. -/
def leftmostLeafPid : BTree → Int
  | .leaf pid _ _ => pid
  | .node _ .nil => INVALID_PAGE_ID
  | .node _ (.cons _ c _) => leftmostLeafPid c

/-- Follow the `next_page_id_` chain through the collected leaf pages,
reading off each page's keys (`fuel` bounds the walk). -/
def chainFrom (m : List (Int × List Int × Int)) : Int → Nat → List (List Int)
  | _, 0 => []
  | pid, fuel + 1 =>
    match m.find? (fun e => e.1 == pid) with
    | none => []
    | some e => e.2.1 :: (if e.2.2 = INVALID_PAGE_ID then [] else chainFrom m e.2.2 fuel)

/-- The key lists of the leaves of the tree, read left to right along the
`next_page_id_` chain starting at the leftmost leaf. -/
def BPlusTree.leafChain (t : BPlusTree) : List (List Int) :=
  match t.root with
  | none => []
  | some r => chainFrom (collectLeaves r) (leftmostLeafPid r) (collectLeaves r).length

/-- The height of the tree (`0` when empty). -/
def BPlusTree.height (t : BPlusTree) : Nat :=
  match t.root with
  | none => 0
  | some r => heightT r

/-- Insert the keys of a list in order, each with value `10 * key`
(the concrete runs of the spec's scenarios). -/
def BPlusTree.insertList (t : BPlusTree) (keys : List Int) : BPlusTree :=
  keys.foldl (fun acc k => (acc.insert k (10 * k)).2) t

/-! ## Concrete scenario states -/

/-- `Evict` with the frame id projected out (`st` is returned unchanged on
failure, as the source leaves the replacer untouched then). -/
def evictFrame (st : LRUKReplacer) : Option Nat × LRUKReplacer :=
  match evict st with
  | none => (none, st)
  | some (f, st') => (some f, st')

/-- The keys of the leaf page on which the search for `key` lands. -/
def leafKeysAt (t : BPlusTree) (key : Int) : List Int :=
  match t.root with
  | none => []
  | some r => (findLeafT r key).2.1.map Prod.fst

/-- Scenario for the grant check: T1's exclusive table lock is granted and
T2's shared request has just been appended. -/
def q1 : List LockRequest := [⟨1, .exclusive, true⟩, ⟨2, .shared, false⟩]

/-- Scenario for the unlock check: a transaction holding exactly one
intention-exclusive table lock, on table 1. -/
def txnIX1 : Txn := ⟨2, .repeatableRead, .growing, [], [], [], [1], [], [], []⟩

/-- Scenario for the row-lock hierarchy check: a transaction holding
exactly one exclusive table lock, on table 1. -/
def txnX1 : Txn := ⟨3, .repeatableRead, .growing, [], [1], [], [], [], [], []⟩

/-- Scenario for the row-lock hierarchy check: a transaction holding
exactly one shared-intention-exclusive table lock, on table 1. -/
def txnSIX1 : Txn := ⟨5, .repeatableRead, .growing, [], [], [], [], [1], [], []⟩

/-- Scenario for the unlock state transition: a REPEATABLE_READ
transaction holding a shared lock on table 1. -/
def txnS1 : Txn := ⟨1, .repeatableRead, .growing, [1], [], [], [], [], [], []⟩

/-- The request queue of table 1 in the `txnS1` scenario. -/
def qS1 : List LockRequest := [⟨1, .shared, true⟩]

/-- Scenario for the row unlock state transition: a READ_COMMITTED
transaction holding a shared lock on row 5 of table 1. -/
def txnRowS : Txn := ⟨4, .readCommitted, .growing, [], [], [], [], [], [(1, [5])], []⟩

/-- The request queue of row 5 of table 1 in the `txnRowS` scenario. -/
def qRowS : List LockRequest := [⟨4, .shared, true⟩]

/-- Replacer scenario of the spec's LRU-K test: `K = 2`, frames 0, 1, 2,
access sequence `f0, f1, f2, f1, f0`, all three frames evictable. -/
def lrukScenario : LRUKReplacer :=
  let s := recordAccess (recordAccess (recordAccess (recordAccess (recordAccess
    (LRUKReplacer.init 3 2) 0) 1) 2) 1) 0
  setEvictable (setEvictable (setEvictable s 0 true) 1 true) 2 true

/-- Replacer scenario with `K = 3` and access sequence `f0, f1, f0`, both
frames evictable: two frames of infinite K-distance whose order of first
access differs from the order of most recent access. -/
def lrukInfScenario : LRUKReplacer :=
  let s := recordAccess (recordAccess (recordAccess (LRUKReplacer.init 2 3) 0) 1) 0
  setEvictable (setEvictable s 0 true) 1 true

/-- A one-frame buffer pool whose only frame is pinned (its page is
resident and not evictable): the free list is empty and the replacer
tracks frame 0 as non-evictable. -/
def pinnedPool : BufferPoolManager :=
  { poolSize := 1
    pages := [⟨0, 1, false, 42⟩]
    pageTable := [(0, 0)]
    replacer := ⟨2, 1, 1, [⟨0, [1, 0]⟩], [], [0]⟩
    freeList := []
    nextPageId := 1
    disk := [] }

/-- The tree of the spec's B+-tree scenario: `leaf_max = internal_max = 4`,
keys 1..10 inserted in ascending order into an empty tree. -/
def tree110 : BPlusTree := (BPlusTree.new 4 4).insertList [1, 2, 3, 4, 5, 6, 7, 8, 9, 10]

/-- A single-leaf tree holding keys 2 and 4. -/
def tree24 : BPlusTree := (BPlusTree.new 4 4).insertList [2, 4]

/-! ### B+-tree well-formedness

The search-tree invariant of the spec, used to settle the algebraic
claims: every node's keys are strictly increasing, and for every internal
node with separator `k` between children `L` and `R`, all keys in `L` are
`< k` and all in `R` are `≥ k`.  Bounds are carried as an optional
inclusive lower bound and an optional exclusive upper bound. -/

/-- Optional inclusive lower bound. -/
def inLB : Option Int → Int → Prop
  | none, _ => True
  | some l, x => l ≤ x

/-- Optional exclusive upper bound. -/
def inUB : Option Int → Int → Prop
  | none, _ => True
  | some u, x => x < u

/-- Optional strict lower bound. -/
def strictLB : Option Int → Int → Prop
  | none, _ => True
  | some l, x => l < x

instance (o : Option Int) (x : Int) : Decidable (inLB o x) := by
  unfold inLB; cases o <;> infer_instance

instance (o : Option Int) (x : Int) : Decidable (inUB o x) := by
  unfold inUB; cases o <;> infer_instance

instance (o : Option Int) (x : Int) : Decidable (strictLB o x) := by
  unfold strictLB; cases o <;> infer_instance

/-- The upper bound governing the child in front of an entry list: the
first separator of the list, or the node's own upper bound. -/
def sepOrD : Entries → Option Int → Option Int
  | .nil, hi => hi
  | .cons k _ _, _ => some k

mutual
/-- All key/value pairs below a page, in tree order. -/
def entriesT : BTree → List (Int × Int)
  | .leaf _ kvs _ => kvs
  | .node _ es => entriesE es

def entriesE : Entries → List (Int × Int)
  | .nil => []
  | .cons _ c r => entriesT c ++ entriesE r
end

mutual
/-- Well-formedness of a subtree whose keys must lie in `[lo, hi)`: leaf
keys are strictly increasing, within bounds, nonempty and at most
`leafMax` many; an internal page is nonempty, has at most `internalMax`
entries, its first child is bounded by the first separator, and each
later child lies between its separator and the next. -/
def TWF (lM iM : Nat) : Option Int → Option Int → BTree → Prop
  | lo, hi, .leaf _ kvs _ =>
      List.Pairwise (· < ·) (kvs.map Prod.fst) ∧
      (∀ p ∈ kvs, inLB lo p.1 ∧ inUB hi p.1) ∧
      kvs.length ≤ lM ∧ kvs ≠ []
  | _, _, .node _ .nil => False
  | lo, hi, .node _ (.cons k0 c0 rest) =>
      TWF lM iM lo (sepOrD rest hi) c0 ∧ EWF lM iM hi rest ∧
      (.cons k0 c0 rest : Entries).size ≤ iM

/-- Well-formedness of the entries of an internal page from index 1 on:
each child lies between its own separator (inclusive) and the next
separator (exclusive), the last child below the node's upper bound. -/
def EWF (lM iM : Nat) : Option Int → Entries → Prop
  | _, .nil => True
  | hi, .cons k c r => TWF lM iM (some k) (sepOrD r hi) c ∧ EWF lM iM hi r
end

/-- The body of an internal page with an explicit lower bound for the
front child (`TWF`'s node case up to the size bound). -/
def GWF (lM iM : Nat) (lo hi : Option Int) : Entries → Prop
  | .nil => True
  | .cons _ c0 rest => TWF lM iM lo (sepOrD rest hi) c0 ∧ EWF lM iM hi rest

/-- Well-formedness of a whole index: the size limits admit at least one
leaf entry and a fresh two-child root, and the root page — when present —
is a well-formed unbounded subtree. -/
def BPlusTree.WF (t : BPlusTree) : Prop :=
  1 ≤ t.leafMaxSize ∧ 2 ≤ t.internalMaxSize ∧
  (match t.root with
   | none => True
   | some r => TWF t.leafMaxSize t.internalMaxSize none none r)

/-- All key/value pairs of the index, in tree order. -/
def BPlusTree.entries (t : BPlusTree) : List (Int × Int) :=
  match t.root with
  | none => []
  | some r => entriesT r

/-- What one recursive `Insert` step must establish when the page it
returns did not split: the duplicate flag reflects presence of the key in
the flat entry list, well-formedness is preserved, and on success the
entry list is the sorted insertion. -/
def SpecNoSplit (lM iM : Nat) (key val : Int) (lo hi : Option Int) (t : BTree)
    (res : Bool) (t2 : BTree) : Prop :=
  (res = true ↔ leafFind (entriesT t) key = none) ∧
  TWF lM iM lo hi t2 ∧
  entriesT t2 = (if res then leafInsertKV (entriesT t) key val else entriesT t)

/-- What one recursive `Insert` step must establish when the page split:
the promoted separator divides the two well-formed halves, lies strictly
inside the key interval of the page, and the halves concatenate to the
sorted insertion. -/
def SpecSplit (lM iM : Nat) (key val : Int) (lo hi : Option Int) (t : BTree)
    (res : Bool) (t2 : BTree) (sep : Int) (nc : BTree) : Prop :=
  res = true ∧ leafFind (entriesT t) key = none ∧
  TWF lM iM lo (some sep) t2 ∧ TWF lM iM (some sep) hi nc ∧
  strictLB lo sep ∧ inUB hi sep ∧
  entriesT t2 ++ entriesT nc = leafInsertKV (entriesT t) key val

/-- `SpecNoSplit` for the walk of `insertE` along the entries of an
internal page from index 1 on: the rebuilt list keeps its head key, its
size and well-formedness. -/
def ESpecNoSplit (lM iM : Nat) (key val : Int) (hi : Option Int) (kh : Int)
    (es : Entries) (res : Bool) (es2 : Entries) : Prop :=
  (res = true ↔ leafFind (entriesE es) key = none) ∧
  (∃ c2 r2, es2 = .cons kh c2 r2) ∧ EWF lM iM hi es2 ∧
  es2.size = es.size ∧
  entriesE es2 = (if res then leafInsertKV (entriesE es) key val else entriesE es)

/-- `SpecSplit` for the walk of `insertE`, stated about the entry list
after `InsertToRight` has placed the promoted (separator, child) pair:
one entry was added, the head key is kept, and the separator is strictly
above the head key. -/
def ESpecSplit (lM iM : Nat) (key val : Int) (hi : Option Int) (kh : Int)
    (es : Entries) (res : Bool) (es2 : Entries) (sep : Int) : Prop :=
  res = true ∧ leafFind (entriesE es) key = none ∧
  kh < sep ∧ inUB hi sep ∧
  (∃ c2 r2, es2 = .cons kh c2 r2) ∧ EWF lM iM hi es2 ∧
  es2.size = es.size + 1 ∧
  entriesE es2 = leafInsertKV (entriesE es) key val

/-- A small populated index (a single root leaf holding keys 2 and 4)
used to exercise the insert/get round trip on a concrete input. -/
def c2Tree : BPlusTree := ⟨some (.leaf 1 [(2, 20), (4, 40)] (-1)), 4, 4, 2⟩

/-! ## Theorems -/

/-- The state projection of erasing a table lock: only lock-set fields are
touched. -/
theorem deleteTableLockInTransaction_state (txn : Txn) (m : LockMode) (oid : Nat) :
    (deleteTableLockInTransaction txn m oid).state = txn.state ∧
    (deleteTableLockInTransaction txn m oid).isolation = txn.isolation := by
  cases m <;> exact ⟨rfl, rfl⟩

/-- The state projection of erasing a row lock. -/
theorem deleteRowLockInTransaction_state (txn : Txn) (m : LockMode) (oid rid : Nat) :
    (deleteRowLockInTransaction txn m oid rid).state = txn.state ∧
    (deleteRowLockInTransaction txn m oid rid).isolation = txn.isolation := by
  cases m <;> exact ⟨rfl, rfl⟩

/-- C1.  In the scenario `q1` — T1's exclusive lock granted, T2's shared
request just enqueued behind it — `CheckCompability` accepts T2's request
at once, so the wait loop of `LockTable` exits immediately and marks it
granted, although the strictly earlier request is granted with a mode
incompatible with shared: the condition the claim states (every earlier
request granted with a compatible mode) is false.  The source's check
never consults the waiting request's own mode nor any `granted_` flag. -/
theorem checkCompability_ignores_own_mode :
    checkCompability q1 1 = true ∧
    lockTableGrantStep q1 1 = some [⟨1, .exclusive, true⟩, ⟨2, .shared, true⟩] ∧
    grantableSpec q1 1 = false ∧
    (q1.get? 0 = some ⟨1, .exclusive, true⟩ ∧ (q1.get? 0).map LockRequest.granted = some true) ∧
    compatibleMatrix .exclusive .shared = false := by
  decide

/-- C4.  `txnIX1` holds exactly one table lock — intention-exclusive, on
table 1 — yet `CheckUnlockReasonability` reports
ATTEMPTED_UNLOCK_BUT_NO_LOCK_HELD for `unlock_table` on table 1, because
the source tests the intention-exclusive set with the literal `count(0)`
instead of `count(oid)`. -/
theorem checkUnlockReasonability_misses_ix_lock :
    holdsTableLock txnIX1 1 = true ∧
    checkUnlockReasonability txnIX1 1 0 false = some .attemptedUnlockButNoLockHeld ∧
    unlockTable txnIX1 1 [⟨2, .intentionExclusive, true⟩] =
      some (.error ({ txnIX1 with state := .aborted }, .attemptedUnlockButNoLockHeld)) :=
  ⟨by decide, by decide, by rfl⟩

/-- C8.  A transaction holding only an exclusive table lock on table 1
requests a shared row lock: the hierarchy check of `CheckUpgradability`
only accepts S/IS/IX table locks, so the abort branch is taken and its
`assert` (that no exclusive table lock is held) fails.  A transaction
holding only SIX is aborted with TABLE_LOCK_NOT_PRESENT on the same
request.  The claim's condition (abort only when none of IS, S, IX, SIX,
X is held) is false for both transactions. -/
theorem checkUpgradabilityRow_rejects_x_and_six :
    holdsTableLock txnX1 1 = true ∧
    checkUpgradabilityRow txnX1 .shared 1 0 = .assertFail ∧
    holdsTableLock txnSIX1 1 = true ∧
    checkUpgradabilityRow txnSIX1 .shared 1 0 = .abortWith .tableLockNotPresent := by
  decide

/-- C9.  A successful `unlock_table` or `unlock_row` sets the state to
`UpdateTransactionState` of the released mode, and that update sends a
GROWING transaction to SHRINKING exactly when the isolation level is
REPEATABLE_READ and the released mode is S or X, or the isolation level is
READ_COMMITTED or READ_UNCOMMITTED and the released mode is X; in every
other case the state is unchanged. -/
theorem unlock_state_transition :
    (∀ (iso : IsolationLevel) (m : LockMode) (st : TransactionState),
      updateTransactionState iso m st =
        if st = .growing ∧
            ((iso = .repeatableRead ∧ (m = .shared ∨ m = .exclusive)) ∨
             ((iso = .readCommitted ∨ iso = .readUncommitted) ∧ m = .exclusive)) then
          .shrinking
        else st) ∧
    (∀ (txn : Txn) (oid : Nat) (queue : List LockRequest) (req : LockRequest)
        (txn' : Txn) (q' : List LockRequest),
      queue.find? (fun r => r.txnId == txn.txnId) = some req →
      unlockTable txn oid queue = some (.ok (txn', q')) →
      txn'.state = updateTransactionState txn.isolation req.lockMode txn.state) ∧
    (∀ (txn : Txn) (oid rid : Nat) (queue : List LockRequest) (req : LockRequest)
        (txn' : Txn) (q' : List LockRequest),
      queue.find? (fun r => r.txnId == txn.txnId) = some req →
      unlockRow txn oid rid queue = some (.ok (txn', q')) →
      txn'.state = updateTransactionState txn.isolation req.lockMode txn.state) := by
  refine ⟨by decide, ?_, ?_⟩
  · intro txn oid queue req txn' q' hfind hok
    unfold unlockTable at hok
    cases hcheck : checkUnlockReasonability txn oid 0 false with
    | some r => rw [hcheck] at hok; simp at hok
    | none =>
      rw [hcheck, hfind] at hok
      simp only [Option.some.injEq, Except.ok.injEq, Prod.mk.injEq] at hok
      obtain ⟨htxn, hq⟩ := hok
      subst htxn
      simp [(deleteTableLockInTransaction_state txn req.lockMode oid).1,
            (deleteTableLockInTransaction_state txn req.lockMode oid).2]
  · intro txn oid rid queue req txn' q' hfind hok
    unfold unlockRow at hok
    cases hcheck : checkUnlockReasonability txn oid rid true with
    | some r => rw [hcheck] at hok; simp at hok
    | none =>
      rw [hcheck, hfind] at hok
      simp only [Option.some.injEq, Except.ok.injEq, Prod.mk.injEq] at hok
      obtain ⟨htxn, hq⟩ := hok
      subst htxn
      simp [(deleteRowLockInTransaction_state txn req.lockMode oid rid).1,
            (deleteRowLockInTransaction_state txn req.lockMode oid rid).2]

/-- Witness for C9: the REPEATABLE_READ transaction `txnS1` releases its
shared lock on table 1 and its state moves GROWING → SHRINKING; the
READ_COMMITTED transaction `txnRowS` releases a shared row lock and its
state stays GROWING. -/
theorem unlock_state_transition_witness :
    (qS1.find? (fun r => r.txnId == txnS1.txnId) = some ⟨1, .shared, true⟩ ∧
      unlockTable txnS1 1 qS1 =
        some (.ok (⟨1, .repeatableRead, .shrinking, [], [], [], [], [], [], []⟩, [])) ∧
      (⟨1, .repeatableRead, .shrinking, [], [], [], [], [], [], []⟩ : Txn).state =
        updateTransactionState txnS1.isolation LockMode.shared txnS1.state) ∧
    (qRowS.find? (fun r => r.txnId == txnRowS.txnId) = some ⟨4, .shared, true⟩ ∧
      unlockRow txnRowS 1 5 qRowS =
        some (.ok (⟨4, .readCommitted, .growing, [], [], [], [], [], [], []⟩, [])) ∧
      (⟨4, .readCommitted, .growing, [], [], [], [], [], [], []⟩ : Txn).state =
        updateTransactionState txnRowS.isolation LockMode.shared txnRowS.state) :=
  ⟨⟨by decide, by rfl,
      unlock_state_transition.2.1 txnS1 1 qS1 ⟨1, .shared, true⟩ _ [] (by decide) (by rfl)⟩,
   ⟨by decide, by rfl,
      unlock_state_transition.2.2 txnRowS 1 5 qRowS ⟨4, .shared, true⟩ _ [] (by decide) (by rfl)⟩⟩

/-- C7 counterexample.  After the access sequence `f0,f1,f2,f1,f0` with
`K = 2` and all frames evictable, the first `Evict` returns f2 but the
second returns f0, not f1: at that point f0's second-most-recent access
(timestamp 1) is older than f1's (timestamp 2), so f0 has the larger
backward K-distance. -/
theorem lruk_second_evict_is_f0 :
    (evictFrame lrukScenario).1 = some 2 ∧
    (evictFrame (evictFrame lrukScenario).2).1 = some 0 ∧ (0 : Nat) ≠ 1 := by
  decide

/-- C7 as amended: the three `Evict` calls return f2, then f0, then f1,
and afterwards no access history remains. -/
theorem lruk_evict_sequence :
    (evictFrame lrukScenario).1 = some 2 ∧
    (evictFrame (evictFrame lrukScenario).2).1 = some 0 ∧
    (evictFrame (evictFrame (evictFrame lrukScenario).2).2).1 = some 1 ∧
    (evictFrame (evictFrame (evictFrame lrukScenario).2).2).2.accessHistory = [] := by
  decide

/-- C3 counterexample.  With `K = 3` and access sequence `f0, f1, f0`,
both frames are evictable and both have infinite backward K-distance, and
f1's most recent access (timestamp 2) is earlier than f0's (timestamp 3);
the claim therefore demands that `Evict` return f1, but it returns f0:
among infinite-distance frames the source orders by first access, not by
most recent access. -/
theorem lruk_inf_tiebreak_counterexample :
    (evictFrame lrukInfScenario).1 = some 0 ∧
    lrukInfScenario.evictableIds.contains 0 = true ∧
    lrukInfScenario.evictableIds.contains 1 = true ∧
    lastSlot 3 (histOf lrukInfScenario.accessHistory 0) = 0 ∧
    lastSlot 3 (histOf lrukInfScenario.accessHistory 1) = 0 ∧
    mostRecent (histOf lrukInfScenario.accessHistory 1) <
      mostRecent (histOf lrukInfScenario.accessHistory 0) := by
  decide

/-- C10.  When the free list is empty and no tracked frame is evictable,
`NewPgImp` returns `nullptr` without writing the page-id out parameter and
leaves the whole pool state — page table, free list, replacer, frames,
`next_page_id_`, disk — unchanged. -/
theorem newPgImp_no_frame_noop (bpm : BufferPoolManager)
    (hfree : bpm.freeList = [])
    (hev : ∀ r ∈ bpm.replacer.accessHistory,
      bpm.replacer.evictableIds.contains r.frameId = false) :
    newPgImp bpm = (none, none, bpm) := by
  have hfind : bpm.replacer.accessHistory.find?
      (fun r => bpm.replacer.evictableIds.contains r.frameId) = none :=
    List.find?_eq_none.mpr (fun r hr => by simpa using hev r hr)
  have hevict : evict bpm.replacer = none := by
    unfold evict; rw [hfind]
  unfold newPgImp
  rw [hfree, hevict]

/-- Witness for C10: a one-frame pool whose only frame is pinned. -/
theorem newPgImp_no_frame_noop_witness :
    pinnedPool.freeList = [] ∧
    (∀ r ∈ pinnedPool.replacer.accessHistory,
      pinnedPool.replacer.evictableIds.contains r.frameId = false) ∧
    newPgImp pinnedPool = (none, none, pinnedPool) :=
  ⟨rfl, by decide, newPgImp_no_frame_noop pinnedPool rfl (by decide)⟩

/-- The index returned by `LeafPage::FindIndex` equals the page size
exactly when the key is absent from the page. -/
theorem leafFindIndex_eq_length_iff (kvs : List (Int × Int)) (k : Int) :
    leafFindIndex kvs k = kvs.length ↔ k ∉ kvs.map Prod.fst := by
  induction kvs with
  | nil => simp [leafFindIndex]
  | cons a rest ih =>
    by_cases hk : k = a.1
    · simp [leafFindIndex, hk]
    · simp only [leafFindIndex, if_neg hk, List.length_cons, List.map_cons, List.mem_cons]
      constructor
      · intro h
        have hrec : leafFindIndex rest k = rest.length := by omega
        exact fun hmem => hmem.elim (fun h1 => hk h1) (ih.mp hrec)
      · intro h
        have hnm : k ∉ rest.map Prod.fst := fun hmem => h (Or.inr hmem)
        rw [ih.mpr hnm]
        omega

/-- C5 counterexample.  In the single-leaf tree holding keys 2 and 4, the
search for key 3 lands on that leaf, which has a slot (key 4) that is
≥ 3 — yet `Begin(3)` returns the end iterator, because `FindIndex` looks
only for an exact key match. -/
theorem beginKey_absent_key_counterexample :
    leafKeysAt tree24 3 = [2, 4] ∧ (3 : Int) ≤ 4 ∧ tree24.beginKey 3 = none := by
  refine ⟨by rfl, by decide, by rfl⟩

/-- C5 as amended: for every key whose search lands on a leaf, `Begin(key)`
returns an iterator on that leaf at the index of the slot whose key equals
`key` when such a slot exists, and the end iterator whenever `key` is
absent from that leaf (even when slots with larger keys exist). -/
theorem beginKey_exact_match (t : BPlusTree) (r : BTree) (k : Int)
    (hroot : t.root = some r) :
    t.beginKey k =
      if k ∈ (findLeafT r k).2.1.map Prod.fst then
        some ((findLeafT r k).1, leafFindIndex (findLeafT r k).2.1 k)
      else none := by
  unfold BPlusTree.beginKey
  rw [hroot]
  by_cases hmem : k ∈ (findLeafT r k).2.1.map Prod.fst
  · have hne : leafFindIndex (findLeafT r k).2.1 k ≠ (findLeafT r k).2.1.length :=
      fun h => ((leafFindIndex_eq_length_iff _ _).mp h) hmem
    simp [hmem, hne]
  · have heq : leafFindIndex (findLeafT r k).2.1 k = (findLeafT r k).2.1.length :=
      (leafFindIndex_eq_length_iff _ _).mpr hmem
    simp [hmem, heq]

/-- Witness for C5: in the two-key leaf, `Begin(4)` returns the iterator
at slot 1 of leaf page 1, as the amended statement computes. -/
theorem beginKey_exact_match_witness :
    tree24.root = some (.leaf 1 [(2, 20), (4, 40)] INVALID_PAGE_ID) ∧
    tree24.beginKey 4 =
      (if (4 : Int) ∈
          ((findLeafT (.leaf 1 [(2, 20), (4, 40)] INVALID_PAGE_ID) 4).2.1.map Prod.fst) then
        some ((findLeafT (.leaf 1 [(2, 20), (4, 40)] INVALID_PAGE_ID) 4).1,
          leafFindIndex (findLeafT (.leaf 1 [(2, 20), (4, 40)] INVALID_PAGE_ID) 4).2.1 4)
      else none) ∧
    tree24.beginKey 4 = some (1, 1) :=
  ⟨by rfl, beginKey_exact_match tree24 _ 4 (by rfl), by rfl⟩

/-- C6 counterexample.  Inserting 1..10 in order with
`leaf_max = internal_max = 4` yields the leaf chain
[1,2], [3,4], [5,6], [7,8,9,10] — a leaf splits only when its size
reaches `max_size + 1`, so after the last split the right leaf keeps
absorbing 8, 9 and 10 — which differs from the claimed chain
[1,2], [3,4], [5,6], [7,8], [9,10]. -/
theorem tree110_chain_counterexample :
    tree110.leafChain = [[1, 2], [3, 4], [5, 6], [7, 8, 9, 10]] ∧
    tree110.leafChain ≠ [[1, 2], [3, 4], [5, 6], [7, 8], [9, 10]] := by
  refine ⟨by rfl, ?_⟩
  intro h
  exact absurd ((by rfl : tree110.leafChain = [[1, 2], [3, 4], [5, 6], [7, 8, 9, 10]]).symm.trans h)
    (by decide)

/-- C6 as amended: the same run produces a tree of height 2 whose leaves,
read along the next-pointer chain, hold [1,2], [3,4], [5,6],
[7,8,9,10]. -/
theorem tree110_shape :
    tree110.height = 2 ∧
    tree110.leafChain = [[1, 2], [3, 4], [5, 6], [7, 8, 9, 10]] := by
  exact ⟨by rfl, by rfl⟩

/-! ### LRU-K invariant lemmas -/

/-- `beats` only looks at the `lastSlot` and `firstStamp` of its left
argument. -/
theorem beats_congr_left {k : Nat} {h h' g : List Nat}
    (hl : lastSlot k h = lastSlot k h') (hf : firstStamp h = firstStamp h') :
    beats k h g ↔ beats k h' g := by
  unfold beats; rw [hl, hf]

/-- `beats` only looks at the `lastSlot` and `firstStamp` of its right
argument. -/
theorem beats_congr_right {k : Nat} {h g g' : List Nat}
    (hl : lastSlot k g = lastSlot k g') (hf : firstStamp g = firstStamp g') :
    beats k h g ↔ beats k h g' := by
  unfold beats; rw [hl, hf]

/-- Eviction priority is transitive. -/
theorem beats_trans {k : Nat} {a b c : List Nat}
    (h1 : beats k a b) (h2 : beats k b c) : beats k a c := by
  unfold beats at *; omega

/-- A finite-distance entry never beats an infinite-distance one. -/
theorem beats_fin_target {k : Nat} {a b : List Nat}
    (h1 : beats k a b) (ha : lastSlot k a ≠ 0) : lastSlot k b ≠ 0 := by
  unfold beats at h1; omega

/-- The element at the last position of a nonempty list, via `getD`. -/
theorem getD_length_sub_one {h : List Nat} (hne : h ≠ []) :
    h.getD (h.length - 1) 0 = h.getLastD 0 := by
  induction h with
  | nil => cases hne rfl
  | cons a t ih =>
    cases t with
    | nil => simp
    | cons b t2 =>
      have hne2 : (b :: t2) ≠ [] := by simp
      have hlen : (a :: b :: t2).length - 1 = (b :: t2).length - 1 + 1 := by
        simp
      rw [hlen, List.getD_cons_succ, ih hne2]
      simp [List.getLastD_cons]

/-- With histories of length `k ≥ 1`, `second[k]` is the last element. -/
theorem lastSlot_eq_getLastD {k : Nat} {h : List Nat} (hk : 1 ≤ k)
    (hlen : h.length = k) : lastSlot k h = h.getLastD 0 := by
  have hne : h ≠ [] := by
    intro hnil; rw [hnil] at hlen; simp at hlen; omega
  have := getD_length_sub_one hne
  rw [hlen] at this
  exact this

/-- `insertNewRecord` places the fresh all-zero record at the boundary
between the infinite-distance region and the finite-distance region. -/
theorem insertNewRecord_eq (k fid : Nat) (l : List FrameRecord) :
    insertNewRecord k fid l =
      l.takeWhile (fun e => decide (lastSlot k e.hist = 0)) ++
        ⟨fid, List.replicate k 0⟩ ::
          l.dropWhile (fun e => decide (lastSlot k e.hist = 0)) := by
  induction l with
  | nil => rfl
  | cons r rs ih =>
    by_cases h : lastSlot k r.hist = 0
    · simp [insertNewRecord, h, List.takeWhile_cons, List.dropWhile_cons, ih]
    · simp [insertNewRecord, h, List.takeWhile_cons, List.dropWhile_cons]

/-- The history update of `RecordAccess` leaves records of other frames
alone. -/
theorem mapUpdate_skip {fid : Nat} {nh : List Nat} {L : List FrameRecord}
    (hL : ∀ a ∈ L, a.frameId ≠ fid) :
    (L.map fun r => if r.frameId = fid then (⟨fid, nh⟩ : FrameRecord) else r) = L := by
  induction L with
  | nil => rfl
  | cons a t ih =>
    simp only [List.map_cons, if_neg (hL a (List.mem_cons_self a t))]
    rw [ih fun x hx => hL x (List.mem_cons_of_mem a hx)]

/-- Updating the history of frame `fid` when `fid` occurs only at the
distinguished position. -/
theorem mapUpdate_eq {fid : Nat} {nh : List Nat} {A B : List FrameRecord} {e : FrameRecord}
    (hA : ∀ a ∈ A, a.frameId ≠ fid) (hB : ∀ b ∈ B, b.frameId ≠ fid)
    (he : e.frameId = fid) :
    ((A ++ e :: B).map fun r => if r.frameId = fid then (⟨fid, nh⟩ : FrameRecord) else r) =
      A ++ ⟨fid, nh⟩ :: B := by
  rw [List.map_append, List.map_cons, if_pos he, mapUpdate_skip hA, mapUpdate_skip hB]

/-- `histOf` at the distinguished position. -/
theorem histOf_eq {fid : Nat} {A B : List FrameRecord} {e : FrameRecord}
    (hA : ∀ a ∈ A, a.frameId ≠ fid) (he : e.frameId = fid) :
    histOf (A ++ e :: B) fid = e.hist := by
  unfold histOf
  induction A with
  | nil => simp [List.find?_cons, he]
  | cons a as ih =>
    have ha : (a.frameId == fid) = false := by
      simp [hA a (List.mem_cons_self a as)]
    simp only [List.cons_append, List.find?_cons, ha]
    exact ih fun x hx => hA x (List.mem_cons_of_mem a hx)

/-- `spliceRecord` moves the distinguished entry past the later entries
that still beat it. -/
theorem spliceRecord_eq {k fid : Nat} {A B : List FrameRecord} {e : FrameRecord}
    (hA : ∀ a ∈ A, a.frameId ≠ fid) (he : e.frameId = fid) :
    spliceRecord k fid (A ++ e :: B) =
      A ++ (B.takeWhile (fun x =>
              decide (lastSlot k x.hist = 0 ∨ lastSlot k x.hist < lastSlot k e.hist)) ++
            e :: B.dropWhile (fun x =>
              decide (lastSlot k x.hist = 0 ∨ lastSlot k x.hist < lastSlot k e.hist))) := by
  induction A with
  | nil => simp [spliceRecord, he]
  | cons a as ih =>
    have ha : ¬(a.frameId = fid) := hA a (List.mem_cons_self a as)
    have hstep : spliceRecord k fid ((a :: as) ++ e :: B) =
        a :: spliceRecord k fid (as ++ e :: B) := by
      simp only [List.cons_append, spliceRecord, if_neg ha]
      rfl
    rw [hstep, ih fun x hx => hA x (List.mem_cons_of_mem a hx)]
    simp

/-- `getLastD` of a nonempty list ignores the default. -/
theorem getLastD_irrel {l : List Nat} (hne : l ≠ []) (d1 d2 : Nat) :
    l.getLastD d1 = l.getLastD d2 := by
  rw [List.getLastD_eq_getLast?, List.getLastD_eq_getLast?]
  cases h2 : l.getLast? with
  | none => exact absurd (List.getLast?_isSome.mpr hne) (by simp [h2])
  | some x => rfl

/-- `getLastD` of a nonempty list is a member. -/
theorem getLastD_mem_of_ne_nil {l : List Nat} (hne : l ≠ []) (d : Nat) :
    l.getLastD d ∈ l := by
  rw [List.getLastD_eq_getLast?]
  cases h2 : l.getLast? with
  | none => exact absurd (List.getLast?_isSome.mpr hne) (by simp [h2])
  | some x =>
    have hx : l.getLast hne = x := by
      have := List.getLast?_eq_getLast l hne
      rw [h2] at this
      exact (Option.some.injEq _ _).mp this.symm
    simpa [hx] using List.getLast_mem hne

/-- `getLastD` over an append. -/
theorem getLastD_append_eq (l1 l2 : List Nat) (d : Nat) :
    (l1 ++ l2).getLastD d = l2.getLastD (l1.getLastD d) := by
  induction l1 generalizing d with
  | nil => rfl
  | cons a t ih => rw [List.cons_append, List.getLastD_cons, ih, List.getLastD_cons]

/-- `getLastD` of an all-zero list. -/
theorem getLastD_all_zero {zs : List Nat} (hz : ∀ x ∈ zs, x = 0) (d : Nat) :
    zs.getLastD d = if zs.isEmpty then d else 0 := by
  induction zs generalizing d with
  | nil => rfl
  | cons z t ih =>
    rw [List.getLastD_cons, ih fun x hx => hz x (List.mem_cons_of_mem z hx)]
    by_cases ht : t.isEmpty
    · simp [ht, hz z (List.mem_cons_self z t)]
    · simp [ht]

/-- The last element of a strictly decreasing list is smaller than the
last element of its `dropLast`. -/
theorem getLast_lt_of_chain : ∀ {l : List Nat}, List.Chain' (· > ·) l →
    l.dropLast ≠ [] → l.getLastD 0 < l.dropLast.getLastD 0
  | [], _, hne => absurd rfl hne
  | [_], _, hne => absurd rfl hne
  | a :: b :: t, hch, _ => by
    cases t with
    | nil => simpa using (List.chain'_cons.mp hch).1
    | cons c t2 =>
      have ih := getLast_lt_of_chain (List.chain'_cons.mp hch).2 (show (b :: c :: t2).dropLast ≠ [] by simp)
      have h1 : (a :: b :: c :: t2).getLastD 0 = (b :: c :: t2).getLastD 0 := by
        rw [List.getLastD_cons]
        exact getLastD_irrel (by simp) a 0
      have h2 : (a :: b :: c :: t2).dropLast.getLastD 0 =
          (b :: c :: t2).dropLast.getLastD 0 := by
        show (a :: (b :: c :: t2).dropLast).getLastD 0 = (b :: c :: t2).dropLast.getLastD 0
        rw [List.getLastD_cons]
        exact getLastD_irrel (by simp) a 0
      rw [h1, h2]
      exact ih

/-- An append with a nonempty all-zero tail drops its last zero. -/
theorem dropLast_append_ne_nil {nz zs : List Nat} (hzs : zs ≠ []) :
    (nz ++ zs).dropLast = nz ++ zs.dropLast := by
  induction nz with
  | nil => rfl
  | cons a t ih =>
    have hne : t ++ zs ≠ [] := by
      simp only [ne_eq, List.append_eq_nil]
      rintro ⟨-, h2⟩; exact hzs h2
    rw [List.cons_append, List.dropLast_cons_of_ne_nil hne, ih, List.cons_append]

/-- Split a well-formed history with a genuine first access into its
nonempty access block and zero padding. -/
theorem HistShape.decomp {h : List Nat} (hs : HistShape h) (hh : h.headD 0 ≠ 0) :
    ∃ nz zs, h = nz ++ zs ∧ List.Chain' (· > ·) nz ∧ (∀ x ∈ nz, 0 < x) ∧
      (∀ x ∈ zs, x = 0) ∧ nz ≠ [] := by
  obtain ⟨nz, zs, heq, hch, hpos, hz⟩ := hs
  refine ⟨nz, zs, heq, hch, hpos, hz, ?_⟩
  rintro rfl
  rw [heq] at hh
  cases zs with
  | nil => simp at hh
  | cons z t => simp [hz z (by simp)] at hh

/-- Filtering the zeros out of a well-formed history leaves the access
block. -/
theorem filter_shape {nz zs : List Nat} (hpos : ∀ x ∈ nz, 0 < x) (hz : ∀ x ∈ zs, x = 0) :
    (nz ++ zs).filter (fun x => decide (x ≠ 0)) = nz := by
  rw [List.filter_append]
  have h1 : nz.filter (fun x => decide (x ≠ 0)) = nz :=
    List.filter_eq_self.mpr fun x hx => by
      have := hpos x hx
      simp only [decide_eq_true_eq]
      omega
  have h2 : zs.filter (fun x => decide (x ≠ 0)) = [] :=
    List.filter_eq_nil_iff.mpr fun x hx => by simp [hz x hx]
  rw [h1, h2, List.append_nil]

/-- `firstStamp` of a well-formed history is the oldest recorded access. -/
theorem firstStamp_shape {h nz zs : List Nat} (heq : h = nz ++ zs)
    (hpos : ∀ x ∈ nz, 0 < x) (hz : ∀ x ∈ zs, x = 0) :
    firstStamp h = nz.getLastD 0 := by
  unfold firstStamp
  rw [heq, filter_shape hpos hz]

/-- Everything `RecordAccess`'s shift does to a tracked frame's history:
the shifted history `ts+1 :: take (k-1) h` keeps length `k`, stays well
formed, starts with a fresh access, contains only old stamps and the new
one, agrees with the old history on `lastSlot`/`firstStamp` when it is
still infinite, strictly increases `lastSlot` when the old history was
finite, and its `lastSlot` — when finite — is the new stamp or an old
one. -/
theorem newHist_facts {k ts : Nat} {h : List Nat} (hk : 1 ≤ k)
    (hlen : h.length = k) (hsh : HistShape h) (hh : h.headD 0 ≠ 0)
    (hle : ∀ x ∈ h, x ≤ ts) :
    ((ts + 1) :: h.take (k - 1)).length = k ∧
    HistShape ((ts + 1) :: h.take (k - 1)) ∧
    ((ts + 1) :: h.take (k - 1)).headD 0 ≠ 0 ∧
    (∀ x ∈ (ts + 1) :: h.take (k - 1), x ≤ ts + 1) ∧
    (∀ x ∈ (ts + 1) :: h.take (k - 1), x ≠ 0 → x = ts + 1 ∨ x ∈ h) ∧
    (lastSlot k ((ts + 1) :: h.take (k - 1)) = 0 →
      lastSlot k h = 0 ∧ firstStamp ((ts + 1) :: h.take (k - 1)) = firstStamp h) ∧
    (lastSlot k h ≠ 0 → lastSlot k h < lastSlot k ((ts + 1) :: h.take (k - 1))) ∧
    (lastSlot k ((ts + 1) :: h.take (k - 1)) ≠ 0 →
      lastSlot k ((ts + 1) :: h.take (k - 1)) = ts + 1 ∨
        lastSlot k ((ts + 1) :: h.take (k - 1)) ∈ h) := by
  obtain ⟨nz, zs, heq, hch, hpos, hz, hnz⟩ := hsh.decomp hh
  have htake : h.take (k - 1) = h.dropLast := by
    rw [List.dropLast_eq_take, hlen]
  have hlen1 : ((ts + 1) :: h.take (k - 1)).length = k := by
    rw [htake]
    simp only [List.length_cons, List.length_dropLast, hlen]
    omega
  have hsub : ∀ x ∈ h.take (k - 1), x ∈ h := fun x hx => List.take_subset _ _ hx
  have hlast : lastSlot k ((ts + 1) :: h.take (k - 1)) =
      (h.take (k - 1)).getLastD (ts + 1) := by
    rw [lastSlot_eq_getLastD hk hlen1, List.getLastD_cons]
  have hlastH : lastSlot k h = h.getLastD 0 := lastSlot_eq_getLastD hk hlen
  refine ⟨hlen1, ?_, by simp, ?_, ?_, ?_, ?_, ?_⟩
  · -- HistShape
    cases hzs : zs with
    | nil =>
      subst hzs
      rw [htake, heq, List.append_nil]
      refine ⟨(ts + 1) :: nz.dropLast, [], by simp, ?_, ?_, by simp⟩
      · rw [List.chain'_cons']
        refine ⟨?_, List.Chain'.prefix hch (List.dropLast_prefix nz)⟩
        intro y hy
        have hymem : y ∈ nz.dropLast := List.mem_of_mem_head? hy
        have : y ∈ h := by
          rw [heq, List.append_nil]
          exact List.dropLast_subset _ hymem
        have := hle y this
        omega
      · intro x hx
        rcases List.mem_cons.mp hx with rfl | hx2
        · omega
        · exact hpos x (List.dropLast_subset _ hx2)
    | cons z t =>
      have hzsne : zs ≠ [] := by rw [hzs]; simp
      rw [htake, heq, dropLast_append_ne_nil hzsne]
      refine ⟨(ts + 1) :: nz, zs.dropLast, by simp, ?_, ?_, ?_⟩
      · rw [List.chain'_cons']
        refine ⟨?_, hch⟩
        intro y hy
        have hymem : y ∈ nz := List.mem_of_mem_head? hy
        have : y ∈ h := by rw [heq]; exact List.mem_append_left _ hymem
        have := hle y this
        omega
      · intro x hx
        rcases List.mem_cons.mp hx with rfl | hx2
        · omega
        · exact hpos x hx2
      · intro x hx
        exact hz x (List.dropLast_subset _ hx)
  · -- bound
    intro x hx
    rcases List.mem_cons.mp hx with rfl | hx2
    · omega
    · exact Nat.le_succ_of_le (hle x (hsub x hx2))
  · -- provenance of nonzero stamps
    intro x hx _
    rcases List.mem_cons.mp hx with rfl | hx2
    · exact Or.inl rfl
    · exact Or.inr (hsub x hx2)
  · -- still infinite: lastSlot and firstStamp agree with the old history
    intro h0
    rw [hlast] at h0
    have htne : h.take (k - 1) ≠ [] := by
      intro hte
      rw [hte] at h0
      simp at h0
    -- the old last slot is zero: the dropLast already ends in zero
    cases hzs : zs with
    | nil =>
      -- h = nz, all positive: the shifted history cannot end in 0
      exfalso
      subst hzs
      rw [htake, heq, List.append_nil] at h0 htne
      have := getLastD_mem_of_ne_nil htne (ts + 1)
      rw [h0] at this
      have := hpos 0 (List.dropLast_subset _ this)
      omega
    | cons z t =>
      have hzsne : zs ≠ [] := by rw [hzs]; simp
      constructor
      · rw [hlastH, heq, getLastD_append_eq, getLastD_all_zero hz]
        simp [hzs]
      · -- firstStamp: the zero dropped from the end leaves the access block intact
        have hfs_old : firstStamp h = nz.getLastD 0 := firstStamp_shape heq hpos hz
        have hfs_new : firstStamp ((ts + 1) :: h.take (k - 1)) =
            ((ts + 1) :: nz).getLastD 0 := by
          rw [htake, heq, dropLast_append_ne_nil hzsne]
          exact firstStamp_shape (by simp) (fun x hx => by
            rcases List.mem_cons.mp hx with rfl | hx2
            · omega
            · exact hpos x hx2) (fun x hx => hz x (List.dropLast_subset _ hx))
        rw [hfs_new, hfs_old, List.getLastD_cons]
        exact getLastD_irrel hnz _ _
  · -- the old history was finite: the new last slot is strictly larger
    intro hfin
    rw [hlastH] at hfin
    -- finite: zs must be empty and h = nz with the chain strict
    have hzs : zs = [] := by
      cases hzs : zs with
      | nil => rfl
      | cons z t =>
        exfalso
        rw [heq, getLastD_append_eq, getLastD_all_zero hz] at hfin
        simp [hzs] at hfin
    subst hzs
    rw [List.append_nil] at heq
    subst heq
    rw [hlast, hlastH, htake]
    by_cases hdl : h.dropLast = []
    · -- a single access: the new slot is ts + 1
      rw [hdl]
      have hmem := getLastD_mem_of_ne_nil (show h ≠ [] by rintro rfl; simp at hfin) 0
      have := hle _ hmem
      show h.getLastD 0 < ts + 1
      omega
    · rw [getLastD_irrel hdl (ts + 1) 0]
      exact getLast_lt_of_chain hch hdl
  · -- a finite new last slot is the fresh stamp or one of the old ones
    intro hfin
    rw [hlast] at hfin ⊢
    by_cases hdl : h.take (k - 1) = []
    · rw [hdl]; simp
    · right
      rw [getLastD_irrel hdl (ts + 1) 0]
      exact hsub _ (getLastD_mem_of_ne_nil hdl 0)

/-- The same facts for the fresh all-zero record a first access creates. -/
theorem newHistFresh_facts (k ts : Nat) (hk : 1 ≤ k) :
    ((ts + 1) :: (List.replicate k 0).take (k - 1)) =
      (ts + 1) :: List.replicate (k - 1) 0 ∧
    ((ts + 1) :: (List.replicate k 0).take (k - 1)).length = k ∧
    HistShape ((ts + 1) :: (List.replicate k 0).take (k - 1)) ∧
    ((ts + 1) :: (List.replicate k 0).take (k - 1)).headD 0 ≠ 0 ∧
    (∀ x ∈ (ts + 1) :: (List.replicate k 0).take (k - 1), x ≤ ts + 1) ∧
    (∀ x ∈ (ts + 1) :: (List.replicate k 0).take (k - 1), x ≠ 0 → x = ts + 1) ∧
    firstStamp ((ts + 1) :: (List.replicate k 0).take (k - 1)) = ts + 1 ∧
    (lastSlot k ((ts + 1) :: (List.replicate k 0).take (k - 1)) ≠ 0 →
      lastSlot k ((ts + 1) :: (List.replicate k 0).take (k - 1)) = ts + 1) := by
  have hrep : (List.replicate k 0 : List Nat).take (k - 1) = List.replicate (k - 1) 0 := by
    rw [List.take_replicate]
    congr 1
    omega
  rw [hrep]
  have hlen1 : ((ts + 1) :: List.replicate (k - 1) (0 : Nat)).length = k := by
    simp; omega
  have hz : ∀ x ∈ List.replicate (k - 1) (0 : Nat), x = 0 :=
    fun x hx => List.eq_of_mem_replicate hx
  refine ⟨rfl, hlen1, ⟨[ts + 1], List.replicate (k - 1) 0, by simp, by simp, by simp, hz⟩,
    by simp, ?_, ?_, ?_, ?_⟩
  · intro x hx
    rcases List.mem_cons.mp hx with rfl | hx2
    · omega
    · rw [hz x hx2]; omega
  · intro x hx hx0
    rcases List.mem_cons.mp hx with rfl | hx2
    · rfl
    · exact absurd (hz x hx2) hx0
  · unfold firstStamp
    have : ((ts + 1) :: List.replicate (k - 1) 0).filter (fun x => decide (x ≠ 0)) =
        [ts + 1] := by
      show ((ts + 1) :: List.replicate (k - 1) 0).filter (fun x => decide (x ≠ 0)) = _
      rw [List.filter_cons]
      simp only [decide_eq_true_eq]
      rw [if_pos (by omega)]
      congr 1
      exact List.filter_eq_nil_iff.mpr fun x hx => by simp [hz x hx]
    rw [this]
    rfl
  · intro hfin
    rw [lastSlot_eq_getLastD hk hlen1, List.getLastD_cons] at hfin ⊢
    rw [getLastD_all_zero hz] at hfin ⊢
    by_cases he : (List.replicate (k - 1) (0:Nat)).isEmpty
    · simp [he]
    · simp [he] at hfin

/-- Split a record list at the first record of frame `fid`. -/
theorem exists_split_of_mem_frameId {l : List FrameRecord} {fid : Nat}
    (hmem : fid ∈ l.map FrameRecord.frameId) :
    ∃ A e B, l = A ++ e :: B ∧ e.frameId = fid ∧ ∀ a ∈ A, a.frameId ≠ fid := by
  induction l with
  | nil => simp at hmem
  | cons r rs ih =>
    by_cases hr : r.frameId = fid
    · exact ⟨[], r, rs, by simp, hr, by simp⟩
    · have hmem2 : fid ∈ rs.map FrameRecord.frameId := by
        rcases List.mem_map.mp hmem with ⟨x, hx, hfx⟩
        rcases List.mem_cons.mp hx with rfl | hx2
        · exact absurd hfx hr
        · exact List.mem_map.mpr ⟨x, hx2, hfx⟩
      obtain ⟨A, e, B, heq, he, hA⟩ := ih hmem2
      refine ⟨r :: A, e, B, by simp [heq], he, ?_⟩
      intro a ha
      rcases List.mem_cons.mp ha with rfl | h2
      · exact hr
      · exact hA a h2

/-- With unique frame ids, the records after the split position also
avoid `fid`. -/
theorem split_right_free {A B : List FrameRecord} {e : FrameRecord} {fid : Nat}
    (hnd : ((A ++ e :: B).map FrameRecord.frameId).Nodup) (he : e.frameId = fid) :
    ∀ b ∈ B, b.frameId ≠ fid := by
  intro b hb hbf
  rw [List.map_append, List.map_cons] at hnd
  have h1 := (List.nodup_append.mp hnd).2.1
  have h2 := List.nodup_cons.mp h1
  exact h2.1 (by rw [he, ← hbf]; exact List.mem_map.mpr ⟨b, hb, rfl⟩)

/-- `RecordAccess` on a tracked frame, written out: the frame's record is
shifted in place and then — if its K-distance became finite — spliced
forward past the entries that still beat it. -/
theorem recordAccess_tracked_eq (st : LRUKReplacer) (fid : Nat)
    (htr : (st.evictableIds.contains fid || st.nonEvictableIds.contains fid) = true)
    {A B : List FrameRecord} {e : FrameRecord}
    (hsplit : st.accessHistory = A ++ e :: B)
    (hA : ∀ a ∈ A, a.frameId ≠ fid) (hB : ∀ b ∈ B, b.frameId ≠ fid)
    (he : e.frameId = fid) :
    recordAccess st fid =
      ⟨st.k, st.replacerSize, st.currentTimestamp + 1,
        (if lastSlot st.k ((st.currentTimestamp + 1) :: e.hist.take (st.k - 1)) ≠ 0 then
          A ++ (B.takeWhile (fun x => decide (lastSlot st.k x.hist = 0 ∨
                lastSlot st.k x.hist <
                  lastSlot st.k ((st.currentTimestamp + 1) :: e.hist.take (st.k - 1)))) ++
            (⟨fid, (st.currentTimestamp + 1) :: e.hist.take (st.k - 1)⟩ : FrameRecord) ::
              B.dropWhile (fun x => decide (lastSlot st.k x.hist = 0 ∨
                lastSlot st.k x.hist <
                  lastSlot st.k ((st.currentTimestamp + 1) :: e.hist.take (st.k - 1)))))
        else
          A ++ (⟨fid, (st.currentTimestamp + 1) :: e.hist.take (st.k - 1)⟩ : FrameRecord) :: B),
        st.evictableIds, st.nonEvictableIds⟩ := by
  simp only [recordAccess, htr, if_true]
  rw [hsplit, histOf_eq hA he, mapUpdate_eq hA hB he]
  by_cases hls : lastSlot st.k ((st.currentTimestamp + 1) :: e.hist.take (st.k - 1)) ≠ 0
  · rw [if_pos hls, if_pos hls, spliceRecord_eq hA rfl]
  · rw [if_neg hls, if_neg hls]

/-- `RecordAccess` on a frame seen for the first time, written out: a
fresh record is inserted at the boundary between the infinite- and
finite-distance regions, made non-evictable, and then shifted (the splice
fires only when `k = 1`). -/
theorem recordAccess_fresh_eq (st : LRUKReplacer) (fid : Nat)
    (htr : (st.evictableIds.contains fid || st.nonEvictableIds.contains fid) = false)
    (hfree : ∀ a ∈ st.accessHistory, a.frameId ≠ fid) :
    recordAccess st fid =
      ⟨st.k, st.replacerSize, st.currentTimestamp + 1,
        (let A := st.accessHistory.takeWhile (fun e => decide (lastSlot st.k e.hist = 0));
         let B := st.accessHistory.dropWhile (fun e => decide (lastSlot st.k e.hist = 0));
         let nh := (st.currentTimestamp + 1) :: (List.replicate st.k 0).take (st.k - 1);
         if lastSlot st.k nh ≠ 0 then
          A ++ (B.takeWhile (fun x => decide (lastSlot st.k x.hist = 0 ∨
                lastSlot st.k x.hist < lastSlot st.k nh)) ++
            (⟨fid, nh⟩ : FrameRecord) ::
              B.dropWhile (fun x => decide (lastSlot st.k x.hist = 0 ∨
                lastSlot st.k x.hist < lastSlot st.k nh)))
         else
          A ++ (⟨fid, nh⟩ : FrameRecord) :: B),
        st.evictableIds, fid :: st.nonEvictableIds⟩ := by
  have hA : ∀ a ∈ st.accessHistory.takeWhile (fun e => decide (lastSlot st.k e.hist = 0)),
      a.frameId ≠ fid := fun a ha => hfree a (List.takeWhile_subset _ ha)
  have hB : ∀ b ∈ st.accessHistory.dropWhile (fun e => decide (lastSlot st.k e.hist = 0)),
      b.frameId ≠ fid := fun b hb => hfree b (List.dropWhile_subset _ hb)
  simp only [recordAccess, htr, if_false, Bool.false_eq_true]
  rw [insertNewRecord_eq, histOf_eq hA rfl, mapUpdate_eq hA hB rfl]
  by_cases hls : lastSlot st.k
      ((st.currentTimestamp + 1) :: (List.replicate st.k 0).take (st.k - 1)) ≠ 0
  · rw [if_pos hls, if_pos hls, spliceRecord_eq hA rfl]
  · rw [if_neg hls, if_neg hls]

/-- The last slot of a length-`k` history is one of its entries. -/
theorem lastSlot_mem {k : Nat} {h : List Nat} (hk : 1 ≤ k) (hlen : h.length = k) :
    lastSlot k h ∈ h := by
  rw [lastSlot_eq_getLastD hk hlen]
  refine getLastD_mem_of_ne_nil ?_ 0
  rintro rfl
  rw [List.length_nil] at hlen
  omega

/-- `firstStamp` of a well-formed history is one of its stamps and is
nonzero. -/
theorem firstStamp_mem {h : List Nat} (hs : HistShape h) (hh : h.headD 0 ≠ 0) :
    firstStamp h ∈ h ∧ firstStamp h ≠ 0 := by
  obtain ⟨nz, zs, heq, hch, hpos, hz, hnz⟩ := hs.decomp hh
  rw [firstStamp_shape heq hpos hz]
  have hmem := getLastD_mem_of_ne_nil hnz 0
  constructor
  · rw [heq]; exact List.mem_append_left _ hmem
  · have := hpos _ hmem; omega

/-- If `x` beats the old record, and the shift preserves an infinite
distance or strictly increases a finite one, then `x` beats the shifted
record. -/
theorem beats_right_shift {k : Nat} {x h nh : List Nat}
    (hb : beats k x h)
    (hF : lastSlot k nh = 0 → lastSlot k h = 0 ∧ firstStamp nh = firstStamp h)
    (hG : lastSlot k h ≠ 0 → lastSlot k h < lastSlot k nh) :
    beats k x nh := by
  by_cases h0 : lastSlot k nh = 0
  · obtain ⟨h1, h2⟩ := hF h0
    exact (beats_congr_right (h1.trans h0.symm) h2.symm).mp hb
  · unfold beats at hb ⊢
    omega

/-- Assemble a sorted list around a middle element. -/
theorem pairwise_mid {R : FrameRecord → FrameRecord → Prop}
    {A B : List FrameRecord} {e : FrameRecord}
    (hPA : A.Pairwise R) (hPB : B.Pairwise R)
    (hAB : ∀ a ∈ A, ∀ b ∈ B, R a b)
    (hAe : ∀ a ∈ A, R a e) (hEb : ∀ b ∈ B, R e b) :
    (A ++ e :: B).Pairwise R := by
  rw [List.pairwise_append]
  refine ⟨hPA, ?_, ?_⟩
  · rw [List.pairwise_cons]; exact ⟨hEb, hPB⟩
  · intro a ha b hb
    rcases List.mem_cons.mp hb with rfl | hb2
    · exact hAe a ha
    · exact hAB a ha b hb2

/-- Take a sorted list around a middle element apart. -/
theorem pairwise_mid_elim {R : FrameRecord → FrameRecord → Prop}
    {A B : List FrameRecord} {e : FrameRecord}
    (h : (A ++ e :: B).Pairwise R) :
    A.Pairwise R ∧ B.Pairwise R ∧ (∀ a ∈ A, ∀ b ∈ B, R a b) ∧
      (∀ a ∈ A, R a e) ∧ (∀ b ∈ B, R e b) := by
  rw [List.pairwise_append, List.pairwise_cons] at h
  obtain ⟨h1, ⟨h2, h3⟩, h4⟩ := h
  exact ⟨h1, h3, fun a ha b hb => h4 a ha b (List.mem_cons_of_mem e hb),
    fun a ha => h4 a ha e (List.mem_cons_self e B), h2⟩

/-- Members of `takeWhile` satisfy the predicate. -/
theorem mem_takeWhile_pred {p : FrameRecord → Bool} :
    ∀ {B : List FrameRecord} {t : FrameRecord}, t ∈ B.takeWhile p → p t = true := by
  intro B
  induction B with
  | nil => intro t ht; simp at ht
  | cons b bs ih =>
    intro t ht
    by_cases hp : p b = true
    · rw [List.takeWhile_cons_of_pos hp] at ht
      rcases List.mem_cons.mp ht with rfl | ht2
      · exact hp
      · exact ih ht2
    · rw [List.takeWhile_cons_of_neg hp] at ht
      simp at ht

/-- Everything in the `dropWhile` region is beaten by `e'`, given that a
predicate violation means being beaten and the region is sorted. -/
theorem beats_dropWhile_all {k : Nat} {p : FrameRecord → Bool} {e' : FrameRecord} :
    ∀ {B : List FrameRecord},
      B.Pairwise (fun a b => beats k a.hist b.hist) →
      (∀ b ∈ B, p b = false → beats k e'.hist b.hist) →
      ∀ d ∈ B.dropWhile p, beats k e'.hist d.hist := by
  intro B
  induction B with
  | nil => intro _ _ d hd; simp at hd
  | cons b bs ih =>
    intro hPB hD d hd
    by_cases hp : p b = true
    · rw [List.dropWhile_cons_of_pos hp] at hd
      exact ih (List.pairwise_cons.mp hPB).2
        (fun x hx hxp => hD x (List.mem_cons_of_mem b hx) hxp) d hd
    · rw [List.dropWhile_cons_of_neg hp] at hd
      have hb : beats k e'.hist b.hist :=
        hD b (List.mem_cons_self b bs) (by revert hp; cases p b <;> simp)
      rcases List.mem_cons.mp hd with rfl | hd2
      · exact hb
      · exact beats_trans hb ((List.pairwise_cons.mp hPB).1 d hd2)

/-- A still-infinite shifted record beats whatever the old record beat. -/
theorem beats_left_shift {k : Nat} {h nh g : List Nat}
    (hb : beats k h g) (h0 : lastSlot k nh = 0)
    (hF : lastSlot k nh = 0 → lastSlot k h = 0 ∧ firstStamp nh = firstStamp h) :
    beats k nh g :=
  (beats_congr_left ((hF h0).1.trans h0.symm) (hF h0).2.symm).mp hb

/-- The splice predicate means beating the shifted record. -/
theorem beats_of_cond {k : Nat} {b nh : List Nat}
    (hcond : lastSlot k b = 0 ∨ lastSlot k b < lastSlot k nh)
    (hfin : lastSlot k nh ≠ 0) : beats k b nh := by
  unfold beats; omega

/-- `RecordAccess` preserves the replacer invariant. -/
theorem inv_recordAccess {st : LRUKReplacer} (inv : LRUKInv st) (fid : Nat) :
    LRUKInv (recordAccess st fid) := by
  by_cases htr : (st.evictableIds.contains fid || st.nonEvictableIds.contains fid) = true
  · -- the frame is already tracked
    have htrmem : fid ∈ st.evictableIds ∨ fid ∈ st.nonEvictableIds := by
      simpa using htr
    have hmap : fid ∈ st.accessHistory.map FrameRecord.frameId :=
      (inv.trackedIff fid).mp htrmem
    obtain ⟨A, e, B, hsplit, he, hA⟩ := exists_split_of_mem_frameId hmap
    have hB : ∀ b ∈ B, b.frameId ≠ fid :=
      split_right_free (hsplit ▸ inv.framesNodup) he
    have hchar := recordAccess_tracked_eq st fid htr hsplit hA hB he
    have hemem : e ∈ st.accessHistory := by
      rw [hsplit]; exact List.mem_append_right _ (List.mem_cons_self e B)
    have hAmem : ∀ a ∈ A, a ∈ st.accessHistory := fun a ha => by
      rw [hsplit]; exact List.mem_append_left _ ha
    have hBmem : ∀ b ∈ B, b ∈ st.accessHistory := fun b hb => by
      rw [hsplit]; exact List.mem_append_right _ (List.mem_cons_of_mem e hb)
    obtain ⟨hlen1, hsh1, hhd1, hle1, hprov, hF, hG, hH⟩ :=
      newHist_facts inv.kpos (inv.len e hemem) (inv.shape e hemem)
        (inv.headPos e hemem) (inv.le e hemem)
    obtain ⟨hPA, hPB, hAB, hAe, hEb⟩ := pairwise_mid_elim (hsplit ▸ inv.sorted)
    obtain ⟨dPA, dPB, dAB, dAe, dEb⟩ := pairwise_mid_elim (hsplit ▸ inv.stampsDisj)
    set k := st.k with hkdef
    set ts := st.currentTimestamp with htsdef
    set nh : List Nat := (ts + 1) :: e.hist.take (k - 1) with hnhdef
    -- the new middle record
    set e' : FrameRecord := ⟨fid, nh⟩ with hedef
    have hAe' : ∀ a ∈ A, beats k a.hist e'.hist :=
      fun a ha => beats_right_shift (hAe a ha) hF hG
    have dAe' : ∀ a ∈ A, ∀ x, x ≠ 0 → ¬(x ∈ a.hist ∧ x ∈ e'.hist) := by
      intro a ha x hx ⟨hxa, hxe⟩
      rcases hprov x hxe hx with rfl | hxh
      · have := inv.le a (hAmem a ha) _ hxa; omega
      · exact dAe a ha x hx ⟨hxa, hxh⟩
    have dE'b : ∀ b ∈ B, ∀ x, x ≠ 0 → ¬(x ∈ e'.hist ∧ x ∈ b.hist) := by
      intro b hb x hx ⟨hxe, hxb⟩
      rcases hprov x hxe hx with rfl | hxh
      · have := inv.le b (hBmem b hb) _ hxb; omega
      · exact dEb b hb x hx ⟨hxh, hxb⟩
    -- both branches of the characterization are permutations of the
    -- in-place update
    have hgoal : ∀ H' : List FrameRecord,
        List.Perm H' (A ++ e' :: B) →
        H'.Pairwise (fun a b => beats k a.hist b.hist) →
        LRUKInv ⟨k, st.replacerSize, ts + 1, H', st.evictableIds, st.nonEvictableIds⟩ := by
      intro H' hperm hsort
      have hmem' : ∀ r ∈ H', r ∈ A ∨ r = e' ∨ r ∈ B := by
        intro r hr
        have := hperm.mem_iff.mp hr
        rcases List.mem_append.mp this with h1 | h2
        · exact Or.inl h1
        · rcases List.mem_cons.mp h2 with rfl | h3
          · exact Or.inr (Or.inl rfl)
          · exact Or.inr (Or.inr h3)
      have hidmap : List.Perm (H'.map FrameRecord.frameId)
          (st.accessHistory.map FrameRecord.frameId) := by
        have h1 := hperm.map FrameRecord.frameId
        rw [hsplit]
        have : (A ++ e' :: B).map FrameRecord.frameId =
            (A ++ e :: B).map FrameRecord.frameId := by
          simp [he]
        rwa [this] at h1
      refine ⟨inv.kpos, ?_, ?_, ?_, ?_, ?_, ?_, hsort, inv.evNodup, inv.neNodup,
        inv.evNeDisj, ?_⟩
      · intro r hr
        rcases hmem' r hr with h1 | rfl | h3
        · exact inv.len r (hAmem r h1)
        · exact hlen1
        · exact inv.len r (hBmem r h3)
      · intro r hr
        rcases hmem' r hr with h1 | rfl | h3
        · exact inv.shape r (hAmem r h1)
        · exact hsh1
        · exact inv.shape r (hBmem r h3)
      · intro r hr
        rcases hmem' r hr with h1 | rfl | h3
        · exact inv.headPos r (hAmem r h1)
        · exact hhd1
        · exact inv.headPos r (hBmem r h3)
      · intro r hr x hx
        rcases hmem' r hr with h1 | rfl | h3
        · exact Nat.le_succ_of_le (inv.le r (hAmem r h1) x hx)
        · exact hle1 x hx
        · exact Nat.le_succ_of_le (inv.le r (hBmem r h3) x hx)
      · refine (List.Perm.pairwise_iff ?_ hperm).mpr
          (pairwise_mid dPA dPB dAB dAe' dE'b)
        intro a b hab x hx ⟨hxb, hxa⟩
        exact hab x hx ⟨hxa, hxb⟩
      · exact (List.Perm.nodup_iff hidmap).mpr inv.framesNodup
      · intro f
        rw [inv.trackedIff f]
        constructor
        · exact fun hmemf => hidmap.mem_iff.mpr hmemf
        · exact fun hmemf => hidmap.mem_iff.mp hmemf
    rw [hchar]
    by_cases hls : lastSlot k nh ≠ 0
    · rw [if_pos hls]
      set p : FrameRecord → Bool := fun x =>
        decide (lastSlot k x.hist = 0 ∨ lastSlot k x.hist < lastSlot k nh) with hpdef
      have hTbeats : ∀ t ∈ B.takeWhile p, beats k t.hist e'.hist := by
        intro t ht
        have := mem_takeWhile_pred ht
        rw [hpdef] at this
        exact beats_of_cond (by simpa using this) hls
      have hDbeaten : ∀ d ∈ B.dropWhile p, beats k e'.hist d.hist := by
        refine beats_dropWhile_all hPB ?_
        intro b hb hpb
        have hncond : ¬(lastSlot k b.hist = 0 ∨ lastSlot k b.hist < lastSlot k nh) := by
          rw [hpdef] at hpb; simpa using hpb
        push_neg at hncond
        obtain ⟨hb0, hbge⟩ := hncond
        have hbmem : lastSlot k b.hist ∈ b.hist :=
          lastSlot_mem inv.kpos (inv.len b (hBmem b hb))
        have hble : lastSlot k b.hist ≤ ts := inv.le b (hBmem b hb) _ hbmem
        have hne : lastSlot k nh ≠ lastSlot k b.hist := by
          rcases hH hls with h1 | h2
          · omega
          · intro heq2
            exact dEb b hb (lastSlot k nh) hls ⟨h2, heq2 ▸ hbmem⟩
        show beats k nh b.hist
        unfold beats
        right; right
        exact ⟨hls, hb0, by omega⟩
      refine hgoal _ ?_ ?_
      · have h1 : List.Perm (B.takeWhile p ++ e' :: B.dropWhile p)
            (e' :: (B.takeWhile p ++ B.dropWhile p)) := List.perm_middle
        have h2 := h1.append_left A
        rwa [List.takeWhile_append_dropWhile] at h2
      · rw [List.pairwise_append]
        refine ⟨hPA, ?_, ?_⟩
        · refine pairwise_mid (hPB.sublist (List.takeWhile_sublist p))
            (hPB.sublist (List.dropWhile_sublist p)) ?_ hTbeats hDbeaten
          intro a ha b hb
          have hBsplit : B = B.takeWhile p ++ B.dropWhile p :=
            (List.takeWhile_append_dropWhile p B).symm
          have := hPB
          rw [hBsplit, List.pairwise_append] at this
          exact this.2.2 a ha b hb
        · intro a ha b hb
          rcases List.mem_append.mp hb with h1 | h2
          · exact hAB a ha b (List.takeWhile_subset _ h1)
          · rcases List.mem_cons.mp h2 with rfl | h3
            · exact hAe' a ha
            · exact hAB a ha b (List.dropWhile_subset _ h3)
    · rw [if_neg hls]
      push_neg at hls
      have hEb' : ∀ b ∈ B, beats k e'.hist b.hist :=
        fun b hb => beats_left_shift (hEb b hb) hls hF
      exact hgoal _ (List.Perm.refl _) (pairwise_mid hPA hPB hAB hAe' hEb')
  · -- a frame seen for the first time
    have hnottr : fid ∉ st.evictableIds ∧ fid ∉ st.nonEvictableIds := by
      constructor <;> (intro hmem2; apply htr; simp [hmem2])
    have hfree : ∀ a ∈ st.accessHistory, a.frameId ≠ fid := by
      intro a ha haf
      have : fid ∈ st.accessHistory.map FrameRecord.frameId :=
        List.mem_map.mpr ⟨a, ha, haf⟩
      rcases (inv.trackedIff fid).mpr this with h1 | h2
      · exact hnottr.1 h1
      · exact hnottr.2 h2
    have hchar := recordAccess_fresh_eq st fid (by simpa using htr) hfree
    obtain ⟨hexp, hlen1, hsh1, hhd1, hle1, honly, hfs, hlsval⟩ :=
      newHistFresh_facts st.k st.currentTimestamp inv.kpos
    set k := st.k with hkdef
    set ts := st.currentTimestamp with htsdef
    set q : FrameRecord → Bool := fun e => decide (lastSlot k e.hist = 0) with hqdef
    set A : List FrameRecord := st.accessHistory.takeWhile q with hAdef
    set B : List FrameRecord := st.accessHistory.dropWhile q with hBdef
    have hABsplit : st.accessHistory = A ++ B :=
      (List.takeWhile_append_dropWhile q st.accessHistory).symm
    have hAmem : ∀ a ∈ A, a ∈ st.accessHistory := fun a ha => List.takeWhile_subset _ ha
    have hBmem : ∀ b ∈ B, b ∈ st.accessHistory := fun b hb => List.dropWhile_subset _ hb
    set nh : List Nat := (ts + 1) :: (List.replicate k 0).take (k - 1) with hnhdef
    set e' : FrameRecord := ⟨fid, nh⟩ with hedef
    have hsorted0 := inv.sorted
    rw [hABsplit, List.pairwise_append] at hsorted0
    obtain ⟨hPA, hPB, hAB⟩ := hsorted0
    have hdisj0 := inv.stampsDisj
    rw [hABsplit, List.pairwise_append] at hdisj0
    obtain ⟨dPA, dPB, dAB⟩ := hdisj0
    have dxe' : ∀ r ∈ st.accessHistory, ∀ x, x ≠ 0 → ¬(x ∈ r.hist ∧ x ∈ e'.hist) := by
      intro r hr x hx ⟨hxr, hxe⟩
      have := honly x hxe hx
      subst this
      have := inv.le r hr _ hxr
      omega
    have hAe' : ∀ a ∈ A, beats k a.hist e'.hist := by
      intro a ha
      have ha0 : lastSlot k a.hist = 0 := by
        have := mem_takeWhile_pred (hAdef ▸ ha)
        rw [hqdef] at this; simpa using this
      by_cases h0 : lastSlot k nh = 0
      · have hfsa := firstStamp_mem (inv.shape a (hAmem a ha)) (inv.headPos a (hAmem a ha))
        have : firstStamp a.hist ≤ ts := inv.le a (hAmem a ha) _ hfsa.1
        show beats k a.hist nh
        unfold beats
        right; left
        exact ⟨ha0, h0, by rw [hfs]; omega⟩
      · show beats k a.hist nh
        unfold beats
        left
        exact ⟨ha0, h0⟩
    -- assemble
    have hgoal : ∀ H' : List FrameRecord,
        List.Perm H' (A ++ e' :: B) →
        H'.Pairwise (fun a b => beats k a.hist b.hist) →
        LRUKInv ⟨k, st.replacerSize, ts + 1, H', st.evictableIds,
          fid :: st.nonEvictableIds⟩ := by
      intro H' hperm hsort
      have hmem' : ∀ r ∈ H', r ∈ A ∨ r = e' ∨ r ∈ B := by
        intro r hr
        have := hperm.mem_iff.mp hr
        rcases List.mem_append.mp this with h1 | h2
        · exact Or.inl h1
        · rcases List.mem_cons.mp h2 with rfl | h3
          · exact Or.inr (Or.inl rfl)
          · exact Or.inr (Or.inr h3)
      have hidmap : List.Perm (H'.map FrameRecord.frameId)
          (fid :: st.accessHistory.map FrameRecord.frameId) := by
        have h1 := hperm.map FrameRecord.frameId
        have h2 : List.Perm ((A ++ e' :: B).map FrameRecord.frameId)
            (fid :: (A ++ B).map FrameRecord.frameId) := by
          rw [List.map_append, List.map_cons, List.map_append]
          exact List.perm_middle
        rw [← hABsplit] at h2
        exact h1.trans h2
      refine ⟨inv.kpos, ?_, ?_, ?_, ?_, ?_, ?_, hsort, inv.evNodup, ?_, ?_, ?_⟩
      · intro r hr
        rcases hmem' r hr with h1 | rfl | h3
        · exact inv.len r (hAmem r h1)
        · exact hlen1
        · exact inv.len r (hBmem r h3)
      · intro r hr
        rcases hmem' r hr with h1 | rfl | h3
        · exact inv.shape r (hAmem r h1)
        · exact hsh1
        · exact inv.shape r (hBmem r h3)
      · intro r hr
        rcases hmem' r hr with h1 | rfl | h3
        · exact inv.headPos r (hAmem r h1)
        · exact hhd1
        · exact inv.headPos r (hBmem r h3)
      · intro r hr x hx
        rcases hmem' r hr with h1 | rfl | h3
        · exact Nat.le_succ_of_le (inv.le r (hAmem r h1) x hx)
        · exact hle1 x hx
        · exact Nat.le_succ_of_le (inv.le r (hBmem r h3) x hx)
      · refine (List.Perm.pairwise_iff ?_ hperm).mpr
          (pairwise_mid dPA dPB dAB
            (fun a ha => dxe' a (hAmem a ha))
            (fun b hb x hx ⟨hxe, hxb⟩ => dxe' b (hBmem b hb) x hx ⟨hxb, hxe⟩))
        intro a b hab x hx ⟨hxb, hxa⟩
        exact hab x hx ⟨hxa, hxb⟩
      · refine (hidmap.nodup_iff).mpr ?_
        rw [List.nodup_cons]
        refine ⟨?_, inv.framesNodup⟩
        intro hmemf
        rcases List.mem_map.mp hmemf with ⟨r, hr, hrf⟩
        exact hfree r hr hrf
      · rw [List.nodup_cons]
        exact ⟨hnottr.2, inv.neNodup⟩
      · intro f hf
        rw [List.mem_cons]
        rintro (rfl | h2)
        · exact hnottr.1 hf
        · exact inv.evNeDisj f hf h2
      · intro f
        rw [hidmap.mem_iff]
        simp only [List.mem_cons]
        constructor
        · rintro (h1 | rfl | h2)
          · exact Or.inr ((inv.trackedIff f).mp (Or.inl h1))
          · exact Or.inl rfl
          · exact Or.inr ((inv.trackedIff f).mp (Or.inr h2))
        · rintro (rfl | h2)
          · exact Or.inr (Or.inl rfl)
          · rcases (inv.trackedIff f).mpr h2 with h3 | h4
            · exact Or.inl h3
            · exact Or.inr (Or.inr h4)
    rw [hchar]
    simp only []
    by_cases hls : lastSlot k nh ≠ 0
    · rw [if_pos hls]
      set p : FrameRecord → Bool := fun x =>
        decide (lastSlot k x.hist = 0 ∨ lastSlot k x.hist < lastSlot k nh) with hpdef
      have hTbeats : ∀ t ∈ B.takeWhile p, beats k t.hist e'.hist := by
        intro t ht
        have := mem_takeWhile_pred ht
        rw [hpdef] at this
        exact beats_of_cond (by simpa using this) hls
      have hDbeaten : ∀ d ∈ B.dropWhile p, beats k e'.hist d.hist := by
        refine beats_dropWhile_all hPB ?_
        intro b hb hpb
        exfalso
        have hncond : ¬(lastSlot k b.hist = 0 ∨ lastSlot k b.hist < lastSlot k nh) := by
          rw [hpdef] at hpb; simpa using hpb
        push_neg at hncond
        have hbmem : lastSlot k b.hist ∈ b.hist :=
          lastSlot_mem inv.kpos (inv.len b (hBmem b hb))
        have hble : lastSlot k b.hist ≤ ts := inv.le b (hBmem b hb) _ hbmem
        have := hlsval hls
        omega
      refine hgoal _ ?_ ?_
      · have h1 : List.Perm (B.takeWhile p ++ e' :: B.dropWhile p)
            (e' :: (B.takeWhile p ++ B.dropWhile p)) := List.perm_middle
        have h2 := h1.append_left A
        rwa [List.takeWhile_append_dropWhile] at h2
      · rw [List.pairwise_append]
        refine ⟨hPA, ?_, ?_⟩
        · refine pairwise_mid (hPB.sublist (List.takeWhile_sublist p))
            (hPB.sublist (List.dropWhile_sublist p)) ?_ hTbeats hDbeaten
          intro a ha b hb
          have hBsplit : B = B.takeWhile p ++ B.dropWhile p :=
            (List.takeWhile_append_dropWhile p B).symm
          have := hPB
          rw [hBsplit, List.pairwise_append] at this
          exact this.2.2 a ha b hb
        · intro a ha b hb
          rcases List.mem_append.mp hb with h1 | h2
          · exact hAB a ha b (List.takeWhile_subset _ h1)
          · rcases List.mem_cons.mp h2 with rfl | h3
            · exact hAe' a ha
            · exact hAB a ha b (List.dropWhile_subset _ h3)
    · rw [if_neg hls]
      push_neg at hls
      have hEb' : ∀ b ∈ B, beats k e'.hist b.hist := by
        refine beats_dropWhile_all inv.sorted ?_
        intro b hb hqb
        have hb0 : lastSlot k b.hist ≠ 0 := by
          rw [hqdef] at hqb; simpa using hqb
        show beats k nh b.hist
        unfold beats
        left
        exact ⟨hls, hb0⟩
      exact hgoal _ (List.Perm.refl _) (pairwise_mid hPA hPB hAB hAe' hEb')

/-- A successful `find?` splits the list at the first match, and `eraseP`
with the same predicate removes exactly that entry. -/
theorem find?_split {p : FrameRecord → Bool} :
    ∀ {l : List FrameRecord} {r : FrameRecord}, l.find? p = some r →
      ∃ A B, l = A ++ r :: B ∧ (∀ a ∈ A, p a = false) ∧ l.eraseP p = A ++ B := by
  intro l
  induction l with
  | nil => intro r h; simp at h
  | cons x xs ih =>
    intro r h
    by_cases hx : p x = true
    · rw [List.find?_cons_of_pos xs hx] at h
      obtain rfl : x = r := by simpa using h
      exact ⟨[], xs, by simp, by simp, by rw [List.eraseP_cons_of_pos hx]; simp⟩
    · have hx' : p x = false := by revert hx; cases p x <;> simp
      rw [List.find?_cons_of_neg xs (by simp [hx'])] at h
      obtain ⟨A, B, heq, hAf, herase⟩ := ih h
      refine ⟨x :: A, B, by simp [heq], ?_, ?_⟩
      · intro a ha
        rcases List.mem_cons.mp ha with rfl | h2
        · exact hx'
        · exact hAf a h2
      · rw [List.eraseP_cons_of_neg (by simp [hx']), herase]
        simp

/-- A fresh replacer satisfies the invariant. -/
theorem inv_init (numFrames k : Nat) (hk : 1 ≤ k) :
    LRUKInv (LRUKReplacer.init numFrames k) := by
  refine ⟨hk, ?_, ?_, ?_, ?_, ?_, ?_, ?_, ?_, ?_, ?_, ?_⟩ <;>
    simp [LRUKReplacer.init]

/-- `SetEvictable` preserves the invariant. -/
theorem inv_setEvictable {st : LRUKReplacer} (inv : LRUKInv st) (fid : Nat) (b : Bool) :
    LRUKInv (setEvictable st fid b) := by
  unfold setEvictable
  by_cases h1 : b = true ∧ ¬st.evictableIds.contains fid = true ∧
      st.nonEvictableIds.contains fid = true
  · rw [if_pos h1]
    obtain ⟨-, hnev, hne⟩ := h1
    have hnev' : fid ∉ st.evictableIds := by simpa using hnev
    have hne' : fid ∈ st.nonEvictableIds := by simpa using hne
    refine ⟨inv.kpos, inv.len, inv.shape, inv.headPos, inv.le, inv.stampsDisj,
      inv.framesNodup, inv.sorted, ?_, ?_, ?_, ?_⟩
    · exact List.nodup_cons.mpr ⟨hnev', inv.evNodup⟩
    · exact inv.neNodup.erase fid
    · intro f hf
      rcases List.mem_cons.mp hf with rfl | h2
      · exact inv.neNodup.not_mem_erase
      · intro hmem
        exact inv.evNeDisj f h2 (List.mem_of_mem_erase hmem)
    · intro f
      rw [← inv.trackedIff f]
      constructor
      · rintro (h2 | h3)
        · rcases List.mem_cons.mp h2 with rfl | h4
          · exact Or.inr hne'
          · exact Or.inl h4
        · exact Or.inr (List.mem_of_mem_erase h3)
      · rintro (h2 | h3)
        · exact Or.inl (List.mem_cons_of_mem fid h2)
        · by_cases hfid : f = fid
          · exact Or.inl (hfid ▸ List.mem_cons_self fid st.evictableIds)
          · exact Or.inr ((List.mem_erase_of_ne hfid).mpr h3)
  · rw [if_neg h1]
    by_cases h2 : ¬b = true ∧ st.evictableIds.contains fid = true ∧
        ¬st.nonEvictableIds.contains fid = true
    · rw [if_pos h2]
      obtain ⟨-, hev, hnne⟩ := h2
      have hev' : fid ∈ st.evictableIds := by simpa using hev
      have hnne' : fid ∉ st.nonEvictableIds := by simpa using hnne
      refine ⟨inv.kpos, inv.len, inv.shape, inv.headPos, inv.le, inv.stampsDisj,
        inv.framesNodup, inv.sorted, ?_, ?_, ?_, ?_⟩
      · exact inv.evNodup.erase fid
      · exact List.nodup_cons.mpr ⟨hnne', inv.neNodup⟩
      · intro f hf hmem
        rcases List.mem_cons.mp hmem with rfl | h3
        · exact inv.evNodup.not_mem_erase hf
        · exact inv.evNeDisj f (List.mem_of_mem_erase hf) h3
      · intro f
        rw [← inv.trackedIff f]
        constructor
        · rintro (h2 | h3)
          · exact Or.inl (List.mem_of_mem_erase h2)
          · rcases List.mem_cons.mp h3 with rfl | h4
            · exact Or.inl hev'
            · exact Or.inr h4
        · rintro (h2 | h3)
          · by_cases hfid : f = fid
            · exact Or.inr (hfid ▸ List.mem_cons_self fid st.nonEvictableIds)
            · exact Or.inl ((List.mem_erase_of_ne hfid).mpr h2)
          · exact Or.inr (List.mem_cons_of_mem fid h3)
    · rw [if_neg h2]
      exact inv

/-- `Evict` preserves the invariant. -/
theorem inv_evict {st : LRUKReplacer} (inv : LRUKInv st) {f : Nat} {st' : LRUKReplacer}
    (hev : evict st = some (f, st')) : LRUKInv st' := by
  unfold evict at hev
  cases hfind : st.accessHistory.find? (fun r => st.evictableIds.contains r.frameId) with
  | none => rw [hfind] at hev; simp at hev
  | some r =>
    rw [hfind] at hev
    simp only [Option.some.injEq, Prod.mk.injEq] at hev
    obtain ⟨rfl, rfl⟩ := hev
    obtain ⟨A, B, heq, hAfalse, herase⟩ := find?_split hfind
    have hpr := List.find?_some hfind
    have hrev : r.frameId ∈ st.evictableIds := by simpa using hpr
    have hsub : List.Sublist (A ++ B) st.accessHistory := by
      rw [heq]
      exact (List.append_sublist_append_left A).mpr (List.sublist_cons_self r B)
    have hmemAB : ∀ x ∈ A ++ B, x ∈ st.accessHistory := fun x hx => hsub.mem hx
    have hrid_free : r.frameId ∉ (A ++ B).map FrameRecord.frameId := by
      have hnd := inv.framesNodup
      rw [heq, List.map_append, List.map_cons] at hnd
      intro hmem2
      rw [List.map_append] at hmem2
      rw [List.nodup_append] at hnd
      rcases List.mem_append.mp hmem2 with h1 | h2
      · exact hnd.2.2 h1 (List.mem_cons_self _ _)
      · exact (List.nodup_cons.mp hnd.2.1).1 h2
    refine ⟨inv.kpos, ?_, ?_, ?_, ?_, ?_, ?_, ?_, ?_, inv.neNodup, ?_, ?_⟩ <;>
      simp only [herase]
    · exact fun x hx => inv.len x (hmemAB x hx)
    · exact fun x hx => inv.shape x (hmemAB x hx)
    · exact fun x hx => inv.headPos x (hmemAB x hx)
    · exact fun x hx => inv.le x (hmemAB x hx)
    · exact inv.stampsDisj.sublist hsub
    · exact ((hsub.map FrameRecord.frameId).nodup) inv.framesNodup
    · exact inv.sorted.sublist hsub
    · exact inv.evNodup.erase r.frameId
    · intro g hg
      exact fun hmem2 => inv.evNeDisj g (List.mem_of_mem_erase hg) hmem2
    · intro g
      constructor
      · rintro (h2 | h3)
        · have hgne : g ≠ r.frameId := fun hgr => inv.evNodup.not_mem_erase (hgr ▸ h2)
          have : g ∈ st.accessHistory.map FrameRecord.frameId :=
            (inv.trackedIff g).mp (Or.inl (List.mem_of_mem_erase h2))
          rw [heq, List.map_append, List.map_cons] at this
          rcases List.mem_append.mp this with h4 | h5
          · rw [List.map_append]; exact List.mem_append_left _ h4
          · rcases List.mem_cons.mp h5 with h6 | h7
            · exact absurd h6 hgne
            · rw [List.map_append]; exact List.mem_append_right _ h7
        · have hgne : g ≠ r.frameId := by
            rintro rfl
            exact inv.evNeDisj _ hrev h3
          have : g ∈ st.accessHistory.map FrameRecord.frameId :=
            (inv.trackedIff g).mp (Or.inr h3)
          rw [heq, List.map_append, List.map_cons] at this
          rcases List.mem_append.mp this with h4 | h5
          · rw [List.map_append]; exact List.mem_append_left _ h4
          · rcases List.mem_cons.mp h5 with h6 | h7
            · exact absurd h6 hgne
            · rw [List.map_append]; exact List.mem_append_right _ h7
      · intro hmem2
        have hgne : g ≠ r.frameId := by
          rintro rfl
          exact hrid_free hmem2
        have hgmem : g ∈ st.accessHistory.map FrameRecord.frameId := by
          rw [heq, List.map_append, List.map_cons]
          rw [List.map_append] at hmem2
          rcases List.mem_append.mp hmem2 with h4 | h5
          · exact List.mem_append_left _ h4
          · exact List.mem_append_right _ (List.mem_cons_of_mem _ h5)
        rcases (inv.trackedIff g).mpr hgmem with h4 | h5
        · exact Or.inl ((List.mem_erase_of_ne hgne).mpr h4)
        · exact Or.inr h5

/-- Every reachable replacer state satisfies the invariant. -/
theorem inv_reachable {st : LRUKReplacer} (h : LRUKReachable st) : LRUKInv st := by
  induction h with
  | init numFrames k hk => exact inv_init numFrames k hk
  | record fid hfid _ ih => exact inv_recordAccess ih fid
  | setEv fid b hfid _ ih => exact inv_setEvictable ih fid b
  | evictStep hev _ ih => exact inv_evict ih hev

/-- C3 as amended.  For every reachable replacer state, a successful
`Evict` returns an evictable frame, removes exactly its record from the
access history and its id from the evictable map, and the chosen frame
has the largest backward K-distance among the evictable frames: `beats`
states that a frame with fewer than K recorded accesses (distance +∞)
beats every finite-distance frame, that of two infinite-distance frames
the one whose first recorded access is earlier wins — the source orders
the infinite region by first access, not by most recent access — and
that of two finite-distance frames the one whose K-th most recent access
is older wins. -/
theorem lruk_evict_optimal (st : LRUKReplacer) (hreach : LRUKReachable st)
    (f : Nat) (st' : LRUKReplacer) (hev : evict st = some (f, st')) :
    f ∈ st.evictableIds ∧
    st'.accessHistory =
      st.accessHistory.eraseP (fun e => st.evictableIds.contains e.frameId) ∧
    st'.evictableIds = st.evictableIds.erase f ∧
    ∃ r ∈ st.accessHistory, r.frameId = f ∧
      ∀ g ∈ st.accessHistory, g.frameId ∈ st.evictableIds → g.frameId ≠ f →
        beats st.k r.hist g.hist := by
  have inv := inv_reachable hreach
  unfold evict at hev
  cases hfind : st.accessHistory.find? (fun r => st.evictableIds.contains r.frameId) with
  | none => rw [hfind] at hev; simp at hev
  | some r =>
    rw [hfind] at hev
    simp only [Option.some.injEq, Prod.mk.injEq] at hev
    obtain ⟨rfl, rfl⟩ := hev
    obtain ⟨A, B, heq, hAfalse, herase⟩ := find?_split hfind
    have hrev : r.frameId ∈ st.evictableIds := by simpa using List.find?_some hfind
    refine ⟨hrev, rfl, rfl, r, ?_, rfl, ?_⟩
    · rw [heq]; exact List.mem_append_right _ (List.mem_cons_self r B)
    · intro g hg hgev hgne
      rw [heq] at hg
      rcases List.mem_append.mp hg with h1 | h2
      · exfalso
        have hgf := hAfalse g h1
        rw [List.contains_eq_any_beq] at hgf
        have : g.frameId ∈ st.evictableIds → False := by
          intro hm
          have : st.evictableIds.any (g.frameId == ·) = true := by
            rw [List.any_eq_true]
            exact ⟨g.frameId, hm, by simp⟩
          rw [this] at hgf
          simp at hgf
        exact this hgev
      · rcases List.mem_cons.mp h2 with rfl | h3
        · exact absurd rfl hgne
        · exact (pairwise_mid_elim (heq ▸ inv.sorted)).2.2.2.2 g h3

/-- Witness for C3 as amended: in the `K = 2` scenario after accesses
`f0, f1, f2, f1, f0`, `Evict` removes f2 — the only infinite-distance
frame — and the amended optimality statement holds. -/
theorem lruk_evict_optimal_witness :
    evict lrukScenario =
      some (2, ⟨2, 3, 5, [⟨0, [5, 1]⟩, ⟨1, [4, 2]⟩], [1, 0], []⟩) ∧
    (2 ∈ lrukScenario.evictableIds ∧
     (⟨2, 3, 5, [⟨0, [5, 1]⟩, ⟨1, [4, 2]⟩], [1, 0], []⟩ : LRUKReplacer).accessHistory =
       lrukScenario.accessHistory.eraseP
         (fun e => lrukScenario.evictableIds.contains e.frameId) ∧
     (⟨2, 3, 5, [⟨0, [5, 1]⟩, ⟨1, [4, 2]⟩], [1, 0], []⟩ : LRUKReplacer).evictableIds =
       lrukScenario.evictableIds.erase 2 ∧
     ∃ r ∈ lrukScenario.accessHistory, r.frameId = 2 ∧
       ∀ g ∈ lrukScenario.accessHistory, g.frameId ∈ lrukScenario.evictableIds →
         g.frameId ≠ 2 → beats lrukScenario.k r.hist g.hist) :=
  ⟨by decide,
   lruk_evict_optimal lrukScenario
     (.setEv 2 true (by decide) (.setEv 1 true (by decide) (.setEv 0 true (by decide)
       (.record 0 (by decide) (.record 1 (by decide) (.record 2 (by decide)
         (.record 1 (by decide) (.record 0 (by decide) (.init 3 2 (by decide))))))))))
     2 _ (by decide)⟩

/-! ### B+-tree: bound predicates and flat-list lemmas -/

theorem inLB_some {l x : Int} : inLB (some l) x ↔ l ≤ x := Iff.rfl

theorem inUB_some {u x : Int} : inUB (some u) x ↔ x < u := Iff.rfl

theorem strictLB_some {l x : Int} : strictLB (some l) x ↔ l < x := Iff.rfl

theorem inLB_mono {lo : Option Int} {x y : Int} (hxy : x ≤ y) (h : inLB lo x) :
    inLB lo y := by
  cases lo with
  | none => trivial
  | some l => exact le_trans h hxy

theorem inUB_mono {hi : Option Int} {x y : Int} (hxy : x ≤ y) (h : inUB hi y) :
    inUB hi x := by
  cases hi with
  | none => trivial
  | some u => exact lt_of_le_of_lt hxy h

theorem leafFind_eq_none_iff (kvs : List (Int × Int)) (key : Int) :
    leafFind kvs key = none ↔ key ∉ kvs.map Prod.fst := by
  induction kvs with
  | nil => simp [leafFind]
  | cons p rest ih =>
    obtain ⟨k, v⟩ := p
    simp only [leafFind, List.map_cons, List.mem_cons]
    by_cases hk : k = key
    · subst hk; simp
    · rw [if_neg hk, ih]
      constructor
      · intro h hm
        rcases hm with h1 | h2
        · exact hk h1.symm
        · exact h h2
      · intro h hm
        exact h (Or.inr hm)

theorem leafFind_append_left_none {xs : List (Int × Int)} (ys : List (Int × Int))
    {key : Int} (h : leafFind xs key = none) :
    leafFind (xs ++ ys) key = leafFind ys key := by
  induction xs with
  | nil => rfl
  | cons p rest ih =>
    obtain ⟨k, v⟩ := p
    simp only [leafFind, List.cons_append] at h ⊢
    by_cases hk : k = key
    · rw [if_pos hk] at h; exact absurd h (by simp)
    · rw [if_neg hk] at h ⊢; exact ih h

theorem leafFind_append_right_none (xs : List (Int × Int)) {ys : List (Int × Int)}
    {key : Int} (h : leafFind ys key = none) :
    leafFind (xs ++ ys) key = leafFind xs key := by
  induction xs with
  | nil => simpa using h
  | cons p rest ih =>
    obtain ⟨k, v⟩ := p
    simp only [leafFind, List.cons_append, List.append_eq]
    by_cases hk : k = key
    · rw [if_pos hk, if_pos hk]
    · rw [if_neg hk, if_neg hk, ih]

theorem length_leafInsertKV (kvs : List (Int × Int)) (key val : Int) :
    (leafInsertKV kvs key val).length = kvs.length + 1 := by
  induction kvs with
  | nil => rfl
  | cons p rest ih =>
    obtain ⟨k, v⟩ := p
    simp only [leafInsertKV]
    by_cases hk : k > key
    · rw [if_pos hk]; simp
    · rw [if_neg hk]; simp [ih]

theorem mem_leafInsertKV {kvs : List (Int × Int)} {key val : Int} {p : Int × Int}
    (hp : p ∈ leafInsertKV kvs key val) : p = (key, val) ∨ p ∈ kvs := by
  induction kvs with
  | nil => simpa [leafInsertKV] using hp
  | cons q rest ih =>
    obtain ⟨k, v⟩ := q
    simp only [leafInsertKV] at hp
    by_cases hk : k > key
    · rw [if_pos hk] at hp
      rcases List.mem_cons.mp hp with h1 | h2
      · exact Or.inl h1
      · exact Or.inr h2
    · rw [if_neg hk] at hp
      rcases List.mem_cons.mp hp with h1 | h2
      · exact Or.inr (List.mem_cons.mpr (Or.inl h1))
      · rcases ih h2 with h3 | h4
        · exact Or.inl h3
        · exact Or.inr (List.mem_cons.mpr (Or.inr h4))

theorem sorted_leafInsertKV {kvs : List (Int × Int)} {key : Int} (val : Int)
    (hs : List.Pairwise (· < ·) (kvs.map Prod.fst))
    (hnm : key ∉ kvs.map Prod.fst) :
    List.Pairwise (· < ·) ((leafInsertKV kvs key val).map Prod.fst) := by
  induction kvs with
  | nil => simp [leafInsertKV]
  | cons q rest ih =>
    obtain ⟨k, v⟩ := q
    simp only [List.map_cons, List.pairwise_cons] at hs
    simp only [List.map_cons, List.mem_cons] at hnm
    push_neg at hnm
    simp only [leafInsertKV]
    by_cases hk : k > key
    · rw [if_pos hk]
      simp only [List.map_cons, List.pairwise_cons, List.mem_cons]
      refine ⟨?_, hs.1, hs.2⟩
      intro b hb
      rcases hb with rfl | hb
      · exact hk
      · exact lt_trans hk (hs.1 b hb)
    · rw [if_neg hk]
      have hkey : k < key := lt_of_le_of_ne (not_lt.mp hk) (fun h => hnm.1 h.symm)
      simp only [List.map_cons, List.pairwise_cons]
      refine ⟨?_, ih hs.2 hnm.2⟩
      intro b hb
      rcases List.mem_map.mp hb with ⟨p, hp, rfl⟩
      rcases mem_leafInsertKV hp with rfl | hpm
      · exact hkey
      · exact hs.1 p.1 (List.mem_map.mpr ⟨p, hpm, rfl⟩)

theorem leafFind_leafInsertKV_self {kvs : List (Int × Int)} {key : Int} (val : Int)
    (hnm : key ∉ kvs.map Prod.fst) :
    leafFind (leafInsertKV kvs key val) key = some val := by
  induction kvs with
  | nil => simp [leafInsertKV, leafFind]
  | cons q rest ih =>
    obtain ⟨k, v⟩ := q
    simp only [List.map_cons, List.mem_cons] at hnm
    push_neg at hnm
    simp only [leafInsertKV]
    by_cases hk : k > key
    · rw [if_pos hk]
      simp [leafFind]
    · rw [if_neg hk]
      simp only [leafFind]
      rw [if_neg (fun h => hnm.1 h.symm)]
      exact ih hnm.2

theorem leafInsertKV_append_left {ys : List (Int × Int)} (xs : List (Int × Int))
    {key : Int} (val : Int) (h : ∀ p ∈ ys, key < p.1) :
    leafInsertKV (xs ++ ys) key val = leafInsertKV xs key val ++ ys := by
  induction xs with
  | nil =>
    simp only [List.nil_append, leafInsertKV]
    cases ys with
    | nil => rfl
    | cons q t =>
      obtain ⟨k1, v1⟩ := q
      simp only [leafInsertKV]
      rw [if_pos (h (k1, v1) (List.mem_cons_self _ _))]
      rfl
  | cons q rest ih =>
    obtain ⟨k, v⟩ := q
    simp only [List.cons_append, leafInsertKV, List.append_eq]
    by_cases hk : k > key
    · rw [if_pos hk, if_pos hk]; rfl
    · rw [if_neg hk, if_neg hk, ih]; rfl

theorem leafInsertKV_append_right {xs : List (Int × Int)} (ys : List (Int × Int))
    {key : Int} (val : Int) (h : ∀ p ∈ xs, ¬(p.1 > key)) :
    leafInsertKV (xs ++ ys) key val = xs ++ leafInsertKV ys key val := by
  induction xs with
  | nil => rfl
  | cons q rest ih =>
    obtain ⟨k, v⟩ := q
    simp only [List.cons_append, leafInsertKV, List.append_eq]
    rw [if_neg (h (k, v) (List.mem_cons_self _ _))]
    rw [ih (fun p hp => h p (List.mem_cons_of_mem _ hp))]

/-! ### B+-tree: entry-list take/drop lemmas and unfoldings -/

theorem entriesE_takeE_dropE : ∀ (m : Nat) (es : Entries),
    entriesE (es.takeE m) ++ entriesE (es.dropE m) = entriesE es
  | 0, es => by simp [Entries.takeE, Entries.dropE, entriesE]
  | n + 1, .nil => by simp [Entries.takeE, Entries.dropE, entriesE]
  | n + 1, .cons k c r => by
    simp only [Entries.takeE, Entries.dropE, entriesE, List.append_assoc,
      entriesE_takeE_dropE n r]

theorem size_takeE_dropE : ∀ (m : Nat) (es : Entries), m ≤ es.size →
    (es.takeE m).size = m ∧ (es.dropE m).size = es.size - m
  | 0, es, _ => by simp [Entries.takeE, Entries.dropE, Entries.size]
  | n + 1, .nil, h => by simp [Entries.size] at h
  | n + 1, .cons k c r, h => by
    have hn : n ≤ r.size := by
      simp only [Entries.size] at h; omega
    obtain ⟨h1, h2⟩ := size_takeE_dropE n r hn
    refine ⟨?_, ?_⟩
    · simp only [Entries.takeE, Entries.size, h1]
      omega
    · simp only [Entries.dropE, h2, Entries.size]
      omega

theorem TWF_leaf {lM iM : Nat} {lo hi : Option Int} {pid : Int}
    {kvs : List (Int × Int)} {nxt : Int} :
    TWF lM iM lo hi (.leaf pid kvs nxt) ↔
      List.Pairwise (· < ·) (kvs.map Prod.fst) ∧
      (∀ p ∈ kvs, inLB lo p.1 ∧ inUB hi p.1) ∧
      kvs.length ≤ lM ∧ kvs ≠ [] := Iff.rfl

theorem TWF_node_nil {lM iM : Nat} {lo hi : Option Int} {pid : Int} :
    ¬ TWF lM iM lo hi (.node pid .nil) := fun h => h

theorem TWF_node_cons {lM iM : Nat} {lo hi : Option Int} {pid k0 : Int}
    {c0 : BTree} {rest : Entries} :
    TWF lM iM lo hi (.node pid (.cons k0 c0 rest)) ↔
      TWF lM iM lo (sepOrD rest hi) c0 ∧ EWF lM iM hi rest ∧
      (Entries.cons k0 c0 rest).size ≤ iM := Iff.rfl

theorem EWF_nil {lM iM : Nat} {hi : Option Int} : EWF lM iM hi .nil := trivial

theorem EWF_cons {lM iM : Nat} {hi : Option Int} {k : Int} {c : BTree} {r : Entries} :
    EWF lM iM hi (.cons k c r) ↔
      TWF lM iM (some k) (sepOrD r hi) c ∧ EWF lM iM hi r := Iff.rfl

theorem GWF_nil {lM iM : Nat} {lo hi : Option Int} : GWF lM iM lo hi .nil := trivial

theorem GWF_cons {lM iM : Nat} {lo hi : Option Int} {k : Int} {c : BTree} {r : Entries} :
    GWF lM iM lo hi (.cons k c r) ↔
      TWF lM iM lo (sepOrD r hi) c ∧ EWF lM iM hi r := Iff.rfl

/-! ### B+-tree: key bounds of well-formed subtrees -/

theorem EWF_iff_GWF {lM iM : Nat} {hi : Option Int} {k : Int} {c : BTree} {r : Entries} :
    EWF lM iM hi (.cons k c r) ↔ GWF lM iM (some k) hi (.cons k c r) := Iff.rfl

mutual
theorem twf_entries (lM iM : Nat) : ∀ (lo hi : Option Int) (t : BTree),
    TWF lM iM lo hi t →
    entriesT t ≠ [] ∧ ∀ p ∈ entriesT t, inLB lo p.1 ∧ inUB hi p.1
  | lo, hi, .leaf pid kvs nxt, h => ⟨h.2.2.2, h.2.1⟩
  | lo, hi, .node pid .nil, h => absurd h TWF_node_nil
  | lo, hi, .node pid (.cons k0 c0 rest), h => by
    obtain ⟨hc0, hrest, _⟩ := TWF_node_cons.mp h
    have ih0 := twf_entries lM iM lo (sepOrD rest hi) c0 hc0
    have ihg := gwf_entries lM iM lo hi (.cons k0 c0 rest) (GWF_cons.mpr ⟨hc0, hrest⟩)
    refine ⟨?_, ihg⟩
    show entriesT c0 ++ entriesE rest ≠ []
    intro hemp
    exact ih0.1 (List.append_eq_nil.mp hemp).1
termination_by lo hi t h => sizeOf t

theorem gwf_entries (lM iM : Nat) : ∀ (lo hi : Option Int) (es : Entries),
    GWF lM iM lo hi es →
    ∀ p ∈ entriesE es, inLB lo p.1 ∧ inUB hi p.1
  | lo, hi, .nil, _ => by simp [entriesE]
  | lo, hi, .cons k c r, h => by
    obtain ⟨hc, hr⟩ := GWF_cons.mp h
    have ihc := twf_entries lM iM lo (sepOrD r hi) c hc
    intro p hp
    have hp2 : p ∈ entriesT c ++ entriesE r := hp
    rcases List.mem_append.mp hp2 with hpc | hpr
    · obtain ⟨hl, hu⟩ := ihc.2 p hpc
      refine ⟨hl, ?_⟩
      cases r with
      | nil => exact hu
      | cons k1 c1 r2 =>
        obtain ⟨hc1, hr2⟩ := EWF_cons.mp hr
        have ih1 := twf_entries lM iM (some k1) (sepOrD r2 hi) c1 hc1
        have ihr := gwf_entries lM iM (some k1) hi (.cons k1 c1 r2)
          (GWF_cons.mpr ⟨hc1, hr2⟩)
        obtain ⟨q, hq⟩ := List.exists_mem_of_ne_nil _ ih1.1
        have hqm : q ∈ entriesE (.cons k1 c1 r2) :=
          List.mem_append.mpr (Or.inl hq)
        obtain ⟨hql, hqu⟩ := ihr q hqm
        exact inUB_mono (le_trans (le_of_lt (inUB_some.mp hu)) (inLB_some.mp hql)) hqu
    · cases r with
      | nil => simp [entriesE] at hpr
      | cons k1 c1 r2 =>
        obtain ⟨hc1, hr2⟩ := EWF_cons.mp hr
        have ihr := gwf_entries lM iM (some k1) hi (.cons k1 c1 r2)
          (GWF_cons.mpr ⟨hc1, hr2⟩)
        obtain ⟨hpl, hpu⟩ := ihr p hpr
        refine ⟨?_, hpu⟩
        obtain ⟨q, hq⟩ := List.exists_mem_of_ne_nil _ ihc.1
        obtain ⟨hql, hqu⟩ := ihc.2 q hq
        exact inLB_mono (le_trans (le_of_lt (inUB_some.mp hqu)) (inLB_some.mp hpl)) hql
termination_by lo hi es h => sizeOf es
end

/-- A child bounded above by a separator pushes the lower bound strictly
below that separator. -/
theorem twf_strict_sep {lM iM : Nat} {lo : Option Int} {u : Int} {c : BTree}
    (h : TWF lM iM lo (some u) c) : strictLB lo u := by
  obtain ⟨hne, hb⟩ := twf_entries lM iM lo (some u) c h
  obtain ⟨q, hq⟩ := List.exists_mem_of_ne_nil _ hne
  obtain ⟨hl, hu⟩ := hb q hq
  cases lo with
  | none => trivial
  | some l => exact lt_of_le_of_lt (inLB_some.mp hl) (inUB_some.mp hu)

/-- The first separator of a well-formed entry list respects the upper
bound of the list. -/
theorem ewf_cons_key_ub {lM iM : Nat} {hi : Option Int} {k : Int} {c : BTree}
    {r : Entries} (h : EWF lM iM hi (.cons k c r)) : inUB hi k := by
  obtain ⟨hc, hr⟩ := EWF_cons.mp h
  obtain ⟨hne, _⟩ := twf_entries lM iM (some k) (sepOrD r hi) c hc
  obtain ⟨q, hq⟩ := List.exists_mem_of_ne_nil _ hne
  have hqm : q ∈ entriesE (.cons k c r) := List.mem_append.mpr (Or.inl hq)
  have hb := gwf_entries lM iM (some k) hi (.cons k c r) (EWF_iff_GWF.mp h) q hqm
  exact inUB_mono (inLB_some.mp hb.1) hb.2

/-- Splitting a well-formed internal page body at position `m ≥ 1`: the
key of the first dropped entry separates the two halves. -/
theorem gwf_split (lM iM : Nat) : ∀ (m : Nat) (lo hi : Option Int) (es : Entries),
    1 ≤ m → m < es.size → GWF lM iM lo hi es →
    ∃ sk c tail, es.dropE m = .cons sk c tail ∧
      GWF lM iM lo (some sk) (es.takeE m) ∧
      GWF lM iM (some sk) hi (es.dropE m) ∧
      strictLB lo sk ∧ inUB hi sk
  | 0, _, _, _, h1, _, _ => absurd h1 (by omega)
  | m + 1, lo, hi, .nil, _, hm, _ => by simp [Entries.size] at hm
  | 1, lo, hi, .cons k0 c0 .nil, _, hm, _ => by simp [Entries.size] at hm
  | 1, lo, hi, .cons k0 c0 (.cons k1 c1 r2), _, hm, h => by
    obtain ⟨hc0, hrest⟩ := GWF_cons.mp h
    obtain ⟨hc1, hr2⟩ := EWF_cons.mp hrest
    refine ⟨k1, c1, r2, rfl, ?_, ?_, ?_, ?_⟩
    · exact GWF_cons.mpr ⟨hc0, EWF_nil⟩
    · exact GWF_cons.mpr ⟨hc1, hr2⟩
    · exact twf_strict_sep hc0
    · exact ewf_cons_key_ub hrest
  | n + 2, lo, hi, .cons k0 c0 .nil, _, hm, _ => by simp [Entries.size] at hm
  | n + 2, lo, hi, .cons k0 c0 (.cons k1 c1 r2), _, hm, h => by
    obtain ⟨hc0, hrest⟩ := GWF_cons.mp h
    have hsz : n + 1 < (Entries.cons k1 c1 r2).size := by
      simp only [Entries.size] at hm ⊢; omega
    obtain ⟨sk, c, tail, heq, hTake, hDrop, hsLB, hsUB⟩ :=
      gwf_split lM iM (n + 1) (some k1) hi (.cons k1 c1 r2) (by omega) hsz
        (EWF_iff_GWF.mp hrest)
    refine ⟨sk, c, tail, heq, ?_, hDrop, ?_, hsUB⟩
    · show GWF lM iM lo (some sk) (.cons k0 c0 ((Entries.cons k1 c1 r2).takeE (n + 1)))
      have hshape : (Entries.cons k1 c1 r2).takeE (n + 1) =
          .cons k1 c1 (r2.takeE n) := rfl
      rw [hshape]
      refine GWF_cons.mpr ⟨?_, ?_⟩
      · exact hc0
      · rw [hshape] at hTake
        exact EWF_iff_GWF.mpr hTake
    · have hk01 : strictLB (some k1) sk := hsLB
      cases lo with
      | none => trivial
      | some l =>
        have h1 : l < k1 := strictLB_some.mp (twf_strict_sep hc0)
        exact strictLB_some.mpr (lt_trans h1 (strictLB_some.mp hk01))

/-! ### B+-tree: the descent reads the flat entry list -/

mutual
theorem findLeafT_flat (lM iM : Nat) (key : Int) : ∀ (lo hi : Option Int) (t : BTree),
    TWF lM iM lo hi t →
    leafFind (findLeafT t key).2.1 key = leafFind (entriesT t) key
  | _, _, .leaf pid kvs nxt, _ => rfl
  | _, _, .node pid .nil, h => absurd h TWF_node_nil
  | lo, hi, .node pid (.cons k0 c0 rest), h => by
    obtain ⟨hc0, hrest, _⟩ := TWF_node_cons.mp h
    show leafFind (findLeafE (.cons k0 c0 rest) key).2.1 key =
      leafFind (entriesT c0 ++ entriesE rest) key
    exact findLeafE_flat lM iM key lo hi c0 rest k0 hc0 hrest
termination_by lo hi t h => sizeOf t

theorem findLeafE_flat (lM iM : Nat) (key : Int) :
    ∀ (lo hi : Option Int) (c0 : BTree) (rest : Entries) (k0 : Int),
    TWF lM iM lo (sepOrD rest hi) c0 → EWF lM iM hi rest →
    leafFind (findLeafE (.cons k0 c0 rest) key).2.1 key =
      leafFind (entriesT c0 ++ entriesE rest) key
  | lo, hi, c0, .nil, k0, hc0, _ => by
    show leafFind (findLeafT c0 key).2.1 key = leafFind (entriesT c0 ++ []) key
    rw [List.append_nil]
    exact findLeafT_flat lM iM key lo (sepOrD .nil hi) c0 hc0
  | lo, hi, c0, .cons k1 c1 r2, k0, hc0, hrest => by
    obtain ⟨hc1, hr2⟩ := EWF_cons.mp hrest
    show leafFind
        (if k1 > key then findLeafT c0 key else findLeafE (.cons k1 c1 r2) key).2.1 key =
      leafFind (entriesT c0 ++ entriesE (.cons k1 c1 r2)) key
    by_cases hk : k1 > key
    · rw [if_pos hk]
      have hnone : leafFind (entriesE (.cons k1 c1 r2)) key = none := by
        rw [leafFind_eq_none_iff]
        intro hmem
        obtain ⟨p, hp, hpk⟩ := List.mem_map.mp hmem
        have hb := gwf_entries lM iM (some k1) hi _ (EWF_iff_GWF.mp hrest) p hp
        have hk1p : k1 ≤ p.1 := inLB_some.mp hb.1
        omega
      rw [leafFind_append_right_none _ hnone]
      exact findLeafT_flat lM iM key lo (some k1) c0 hc0
    · rw [if_neg hk]
      have hnone : leafFind (entriesT c0) key = none := by
        rw [leafFind_eq_none_iff]
        intro hmem
        obtain ⟨p, hp, hpk⟩ := List.mem_map.mp hmem
        have hb := (twf_entries lM iM lo (some k1) c0 hc0).2 p hp
        have hpk1 : p.1 < k1 := inUB_some.mp hb.2
        omega
      rw [leafFind_append_left_none _ hnone]
      exact findLeafE_flat lM iM key (some k1) hi c1 r2 k1 hc1 hr2
termination_by lo hi c0 rest k0 h1 h2 => sizeOf c0 + sizeOf rest
end

/-- For a well-formed index, `GetValue` is lookup in the flat entry
list. -/
theorem getValue_eq_leafFind : ∀ (t : BPlusTree), t.WF → ∀ (key : Int),
    t.getValue key = leafFind t.entries key
  | ⟨none, lM, iM, na⟩, _, key => rfl
  | ⟨some r, lM, iM, na⟩, hwf, key =>
    findLeafT_flat lM iM key none none r hwf.2.2

/-! ### B+-tree: assembling an internal page after a child split -/

/-- `InsertInParent` when the rebuilt entry list still fits in the
page. -/
theorem finishNoSplit (lM iM : Nat) (key val : Int) (lo hi : Option Int)
    (pid pid2 : Int) (es es2 : Entries)
    (hG : GWF lM iM lo hi es2)
    (hsh : ∃ k c r, es2 = .cons k c r)
    (hsz : es2.size ≤ iM)
    (hent : entriesE es2 = leafInsertKV (entriesE es) key val)
    (hfind : leafFind (entriesE es) key = none) :
    SpecNoSplit lM iM key val lo hi (.node pid es) true (.node pid2 es2) := by
  obtain ⟨k, c, r, rfl⟩ := hsh
  refine ⟨iff_of_true rfl hfind, ?_, ?_⟩
  · exact TWF_node_cons.mpr ⟨(GWF_cons.mp hG).1, (GWF_cons.mp hG).2, hsz⟩
  · show entriesE (.cons k c r) =
      if true then leafInsertKV (entriesE es) key val else entriesE es
    simpa using hent

/-- `InsertInParent` when the rebuilt entry list overflows and
`SplitPage` divides it at `GetMinSize()`. -/
theorem finishSplit (lM iM : Nat) (key val : Int) (lo hi : Option Int)
    (pid pid2 na : Int) (es es2 : Entries)
    (hiM : 1 ≤ iM)
    (hG : GWF lM iM lo hi es2)
    (hsz : es2.size = iM + 1)
    (hent : entriesE es2 = leafInsertKV (entriesE es) key val)
    (hfind : leafFind (entriesE es) key = none) :
    SpecSplit lM iM key val lo hi (.node pid es) true
      (.node pid2 (es2.takeE (minSize iM)))
      (es2.dropE (minSize iM)).headKey
      (.node na (es2.dropE (minSize iM))) := by
  have hm1 : 1 ≤ minSize iM := by unfold minSize; omega
  have hmlt : minSize iM < es2.size := by unfold minSize; omega
  obtain ⟨sk, c, tail, heq, hTake, hDrop, hsLB, hsUB⟩ :=
    gwf_split lM iM (minSize iM) lo hi es2 hm1 hmlt hG
  have hhead : (es2.dropE (minSize iM)).headKey = sk := by rw [heq]; rfl
  obtain ⟨hts, hds⟩ := size_takeE_dropE (minSize iM) es2 (le_of_lt hmlt)
  rw [hhead]
  refine ⟨rfl, hfind, ?_, ?_, hsLB, hsUB, ?_⟩
  · have hsh : ∃ a b d, es2.takeE (minSize iM) = Entries.cons a b d := by
      cases htk : es2.takeE (minSize iM) with
      | nil => rw [htk] at hts; simp [Entries.size] at hts; omega
      | cons a b d => exact ⟨a, b, d, rfl⟩
    obtain ⟨a, b, d, habd⟩ := hsh
    rw [habd]
    rw [habd] at hTake hts
    refine TWF_node_cons.mpr ⟨(GWF_cons.mp hTake).1, (GWF_cons.mp hTake).2, ?_⟩
    rw [hts]
    unfold minSize; omega
  · rw [heq] at hDrop hds ⊢
    refine TWF_node_cons.mpr ⟨(GWF_cons.mp hDrop).1, (GWF_cons.mp hDrop).2, ?_⟩
    rw [hds, hsz]
    unfold minSize; omega
  · show entriesE (es2.takeE (minSize iM)) ++ entriesE (es2.dropE (minSize iM)) =
      leafInsertKV (entriesE es) key val
    rw [entriesE_takeE_dropE, hent]

/-! ### B+-tree: the insert step on a leaf page -/

theorem insertT_leaf_spec (lM iM : Nat) (key val : Int) (hlM : 1 ≤ lM)
    (lo hi : Option Int) (pid : Int) (kvs : List (Int × Int)) (nxt alloc : Int)
    (hwf : TWF lM iM lo hi (.leaf pid kvs nxt)) (hlo : inLB lo key)
    (hhi : inUB hi key) :
    ((insertT lM iM key val (.leaf pid kvs nxt) alloc).2.2.1 = none →
      SpecNoSplit lM iM key val lo hi (.leaf pid kvs nxt)
        (insertT lM iM key val (.leaf pid kvs nxt) alloc).1
        (insertT lM iM key val (.leaf pid kvs nxt) alloc).2.1) ∧
    (∀ sep nc,
      (insertT lM iM key val (.leaf pid kvs nxt) alloc).2.2.1 = some (sep, nc) →
      SpecSplit lM iM key val lo hi (.leaf pid kvs nxt)
        (insertT lM iM key val (.leaf pid kvs nxt) alloc).1
        (insertT lM iM key val (.leaf pid kvs nxt) alloc).2.1 sep nc) := by
  obtain ⟨hsort, hbnd, hle, hne⟩ := TWF_leaf.mp hwf
  by_cases hdup : (leafFind kvs key).isSome
  · simp only [insertT]
    rw [if_pos hdup]
    refine ⟨fun _ => ⟨?_, hwf, ?_⟩, fun sep nc h => by simp at h⟩
    · show false = true ↔ leafFind kvs key = none
      obtain ⟨v, hv⟩ := Option.isSome_iff_exists.mp hdup
      simp [hv]
    · show entriesT (.leaf pid kvs nxt) =
        if false then leafInsertKV (entriesT (.leaf pid kvs nxt)) key val
        else entriesT (.leaf pid kvs nxt)
      rfl
  · have hfind : leafFind kvs key = none := Option.not_isSome_iff_eq_none.mp hdup
    have hnm : key ∉ kvs.map Prod.fst := (leafFind_eq_none_iff kvs key).mp hfind
    have hlen1 : (leafInsertKV kvs key val).length = kvs.length + 1 :=
      length_leafInsertKV kvs key val
    have hsort1 := sorted_leafInsertKV val hsort hnm
    have hbnd1 : ∀ p ∈ leafInsertKV kvs key val, inLB lo p.1 ∧ inUB hi p.1 := by
      intro p hp
      rcases mem_leafInsertKV hp with rfl | hp2
      · exact ⟨hlo, hhi⟩
      · exact hbnd p hp2
    have hne1 : leafInsertKV kvs key val ≠ [] := by
      intro h; rw [h] at hlen1; simp at hlen1
    simp only [insertT]
    rw [if_neg hdup]
    by_cases hov : (leafInsertKV kvs key val).length = lM + 1
    · rw [if_pos hov]
      refine ⟨fun h => by simp at h, ?_⟩
      intro sep nc hsome
      set kvs1 := leafInsertKV kvs key val with hkvs1
      set m := minSize lM with hmdef
      injection hsome with hp
      injection hp with h1 h2
      subst h1
      subst h2
      have hm1 : 1 ≤ m := by rw [hmdef]; unfold minSize; omega
      have hmle : m ≤ lM := by rw [hmdef]; unfold minSize; omega
      have hdlen : (kvs1.drop m).length = lM + 1 - m := by simp [hov]
      have hdne : kvs1.drop m ≠ [] := by
        intro h; rw [h] at hdlen; simp at hdlen; omega
      obtain ⟨q, t2, hq⟩ := List.exists_cons_of_ne_nil hdne
      have hsepq : ((kvs1.drop m).headD (0, 0)).1 = q.1 := by rw [hq]; rfl
      rw [hsepq]
      have hsplit : List.Pairwise (· < ·) ((kvs1.take m).map Prod.fst) ∧
          List.Pairwise (· < ·) ((kvs1.drop m).map Prod.fst) ∧
          ∀ a ∈ (kvs1.take m).map Prod.fst, ∀ b ∈ (kvs1.drop m).map Prod.fst,
            a < b := by
        have h0 := hsort1
        rw [← List.take_append_drop m kvs1, List.map_append] at h0
        exact List.pairwise_append.mp h0
      have hqmem : q ∈ kvs1 := List.mem_of_mem_drop (hq ▸ List.mem_cons_self q t2)
      have htlen : (kvs1.take m).length = m := by
        simp [List.length_take, hov]; omega
      have htne : kvs1.take m ≠ [] := by
        refine List.length_pos.mp ?_
        rw [htlen]; omega
      refine ⟨rfl, hfind, ?_, ?_, ?_, (hbnd1 q hqmem).2, ?_⟩
      · refine TWF_leaf.mpr ⟨hsplit.1, ?_, ?_, htne⟩
        · intro p hp
          refine ⟨(hbnd1 p (List.mem_of_mem_take hp)).1, ?_⟩
          show p.1 < q.1
          refine hsplit.2.2 p.1 (List.mem_map.mpr ⟨p, hp, rfl⟩) q.1 ?_
          rw [hq]
          exact List.mem_map.mpr ⟨q, List.mem_cons_self _ _, rfl⟩
        · rw [htlen]; omega
      · refine TWF_leaf.mpr ⟨hsplit.2.1, ?_, ?_, hdne⟩
        · intro p hp
          refine ⟨?_, (hbnd1 p (List.mem_of_mem_drop hp)).2⟩
          show q.1 ≤ p.1
          rw [hq] at hp
          rcases List.mem_cons.mp hp with rfl | hp2
          · exact le_refl _
          · have hpw := hsplit.2.1
            rw [hq] at hpw
            simp only [List.map_cons, List.pairwise_cons] at hpw
            exact le_of_lt (hpw.1 p.1 (List.mem_map.mpr ⟨p, hp2, rfl⟩))
        · rw [hdlen]; omega
      · obtain ⟨p0, hp0⟩ := List.exists_mem_of_ne_nil _ htne
        have hlt : p0.1 < q.1 := by
          refine hsplit.2.2 p0.1 (List.mem_map.mpr ⟨p0, hp0, rfl⟩) q.1 ?_
          rw [hq]
          exact List.mem_map.mpr ⟨q, List.mem_cons_self _ _, rfl⟩
        cases lo with
        | none => trivial
        | some l =>
          exact strictLB_some.mpr
            (lt_of_le_of_lt
              (inLB_some.mp (hbnd1 p0 (List.mem_of_mem_take hp0)).1) hlt)
      · show kvs1.take m ++ kvs1.drop m = leafInsertKV kvs key val
        rw [List.take_append_drop]
    · rw [if_neg hov]
      refine ⟨fun _ => ⟨iff_of_true rfl hfind, ?_, rfl⟩, fun sep nc h => by simp at h⟩
      refine TWF_leaf.mpr ⟨hsort1, hbnd1, ?_, hne1⟩
      omega

/-- The tail of `Insert` at an internal page: apply `InsertToRight`, then
either keep the page or split it at `GetMinSize()`. -/
theorem nodeFinish (lM iM : Nat) (key val : Int) (hiM : 1 ≤ iM)
    (lo hi : Option Int) (pid : Int) (es es2 : Entries) (res : Bool) (al2 : Int)
    (out : Bool × BTree × Option (Int × BTree) × Int)
    (hout : out =
      if es2.size = iM + 1 then
        (res, BTree.node pid (es2.takeE (minSize iM)),
         some ((es2.dropE (minSize iM)).headKey,
           BTree.node al2 (es2.dropE (minSize iM))), al2 + 1)
      else (res, BTree.node pid es2, none, al2))
    (hres : res = true)
    (hG : GWF lM iM lo hi es2)
    (hsh : ∃ k c r, es2 = .cons k c r)
    (hszle : es2.size ≤ iM + 1)
    (hent : entriesE es2 = leafInsertKV (entriesE es) key val)
    (hfind : leafFind (entriesE es) key = none) :
    (out.2.2.1 = none →
      SpecNoSplit lM iM key val lo hi (.node pid es) out.1 out.2.1) ∧
    (∀ sep nc, out.2.2.1 = some (sep, nc) →
      SpecSplit lM iM key val lo hi (.node pid es) out.1 out.2.1 sep nc) := by
  subst hres
  by_cases hov : es2.size = iM + 1
  · rw [if_pos hov] at hout
    subst hout
    refine ⟨fun h => (nomatch h), ?_⟩
    intro sep nc hsome
    obtain ⟨h1, h2⟩ :=
      (by simpa using hsome :
        (es2.dropE (minSize iM)).headKey = sep ∧
        BTree.node al2 (es2.dropE (minSize iM)) = nc)
    subst h1
    subst h2
    exact finishSplit lM iM key val lo hi pid pid al2 es es2 hiM hG hov hent hfind
  · rw [if_neg hov] at hout
    subst hout
    refine ⟨fun _ => ?_, fun sep nc h => nomatch h⟩
    exact finishNoSplit lM iM key val lo hi pid pid es es2 hG hsh (by omega) hent hfind

mutual
/-- The recursive `Insert` step below one page preserves well-formedness
and acts as sorted insertion on the flat entry list. -/
theorem insertT_spec (lM iM : Nat) (key val : Int) (hlM : 1 ≤ lM) (hiM : 1 ≤ iM) :
    ∀ (lo hi : Option Int) (t : BTree) (alloc : Int),
    TWF lM iM lo hi t → inLB lo key → inUB hi key →
    ((insertT lM iM key val t alloc).2.2.1 = none →
      SpecNoSplit lM iM key val lo hi t
        (insertT lM iM key val t alloc).1 (insertT lM iM key val t alloc).2.1) ∧
    (∀ sep nc, (insertT lM iM key val t alloc).2.2.1 = some (sep, nc) →
      SpecSplit lM iM key val lo hi t
        (insertT lM iM key val t alloc).1 (insertT lM iM key val t alloc).2.1
        sep nc)
  | lo, hi, .leaf pid kvs nxt, alloc, hwf, hlo, hhi =>
    insertT_leaf_spec lM iM key val hlM lo hi pid kvs nxt alloc hwf hlo hhi
  | lo, hi, .node pid .nil, alloc, hwf, _, _ => absurd hwf TWF_node_nil
  | lo, hi, .node pid (.cons k0 c0 .nil), alloc, hwf, hlo, hhi => by
    obtain ⟨hc0, hrest, hsz⟩ := TWF_node_cons.mp hwf
    have ihc := insertT_spec lM iM key val hlM hiM lo hi c0 alloc hc0 hlo hhi
    rcases hrc : insertT lM iM key val c0 alloc with ⟨res, t2, spl, al2⟩
    rw [hrc] at ihc
    dsimp only at ihc
    cases spl with
    | none =>
      obtain ⟨hiff, hTwf, hent⟩ := ihc.1 rfl
      simp only [insertT, insertE, hrc]
      refine ⟨fun _ => ⟨?_, ?_, ?_⟩, fun sep nc h => nomatch h⟩
      · show res = true ↔
          leafFind (entriesT (.node pid (.cons k0 c0 .nil))) key = none
        rw [show entriesT (.node pid (.cons k0 c0 .nil)) = entriesT c0 from by
          show entriesT c0 ++ entriesE .nil = entriesT c0
          simp [entriesE]]
        exact hiff
      · show TWF lM iM lo hi (.node pid (.cons k0 t2 .nil))
        refine TWF_node_cons.mpr ⟨hTwf, EWF_nil, ?_⟩
        simpa [Entries.size] using hsz
      · show entriesE (.cons k0 t2 .nil) =
          if res then
            leafInsertKV (entriesT (.node pid (.cons k0 c0 .nil))) key val
          else entriesT (.node pid (.cons k0 c0 .nil))
        rw [show entriesT (.node pid (.cons k0 c0 .nil)) = entriesT c0 from by
          show entriesT c0 ++ entriesE .nil = entriesT c0
          simp [entriesE]]
        rw [show entriesE (.cons k0 t2 .nil) = entriesT t2 from by
          show entriesT t2 ++ entriesE .nil = entriesT t2
          simp [entriesE]]
        exact hent
    | some p =>
      obtain ⟨sep, nc⟩ := p
      obtain ⟨hres, hfindc, hTl, hTr, hsLB, hsUB, hentc⟩ := ihc.2 sep nc rfl
      simp only [insertT, insertE, hrc]
      have hauxv : insertToRight (.cons k0 t2 .nil) sep nc =
          .cons k0 t2 (.cons sep nc .nil) := rfl
      refine nodeFinish lM iM key val hiM lo hi pid (.cons k0 c0 .nil)
        (insertToRight (.cons k0 t2 .nil) sep nc) res al2 _ rfl hres ?_ ?_ ?_ ?_ ?_
      · rw [hauxv]
        exact GWF_cons.mpr ⟨hTl, EWF_cons.mpr ⟨hTr, EWF_nil⟩⟩
      · rw [hauxv]
        exact ⟨k0, t2, _, rfl⟩
      · rw [hauxv]
        simp only [Entries.size]
        omega
      · rw [hauxv]
        show entriesT t2 ++ (entriesT nc ++ entriesE Entries.nil) =
          leafInsertKV (entriesT c0 ++ entriesE Entries.nil) key val
        simp only [show entriesE Entries.nil = ([] : List (Int × Int)) from rfl,
          List.append_nil]
        exact hentc
      · show leafFind (entriesT c0 ++ entriesE Entries.nil) key = none
        simp only [show entriesE Entries.nil = ([] : List (Int × Int)) from rfl,
          List.append_nil]
        exact hfindc
  | lo, hi, .node pid (.cons k0 c0 (.cons k1 c1 rs)), alloc, hwf, hlo, hhi => by
    obtain ⟨hc0, hrest, hsz⟩ := TWF_node_cons.mp hwf
    by_cases hk : k1 > key
    · have ihc := insertT_spec lM iM key val hlM hiM lo (some k1) c0 alloc hc0 hlo hk
      rcases hrc : insertT lM iM key val c0 alloc with ⟨res, t2, spl, al2⟩
      rw [hrc] at ihc
      dsimp only at ihc
      have hrestKeys : ∀ p ∈ entriesE (.cons k1 c1 rs), key < p.1 := by
        intro p hp
        have hb := gwf_entries lM iM (some k1) hi (.cons k1 c1 rs)
          (EWF_iff_GWF.mp hrest) p hp
        have hle := inLB_some.mp hb.1
        omega
      have hfindRest : leafFind (entriesE (.cons k1 c1 rs)) key = none := by
        rw [leafFind_eq_none_iff]
        intro hmem
        obtain ⟨p, hp, hpk⟩ := List.mem_map.mp hmem
        have := hrestKeys p hp
        omega
      cases spl with
      | none =>
        obtain ⟨hiff, hTwf, hent⟩ := ihc.1 rfl
        simp only [insertT, insertE, if_pos hk, hrc]
        refine ⟨fun _ => ⟨?_, ?_, ?_⟩, fun sep nc h => nomatch h⟩
        · show res = true ↔
            leafFind (entriesT c0 ++ entriesE (.cons k1 c1 rs)) key = none
          rw [leafFind_append_right_none _ hfindRest]
          exact hiff
        · show TWF lM iM lo hi (.node pid (.cons k0 t2 (.cons k1 c1 rs)))
          refine TWF_node_cons.mpr ⟨hTwf, hrest, ?_⟩
          simpa [Entries.size] using hsz
        · show entriesT t2 ++ entriesE (.cons k1 c1 rs) =
            if res then
              leafInsertKV (entriesT c0 ++ entriesE (.cons k1 c1 rs)) key val
            else entriesT c0 ++ entriesE (.cons k1 c1 rs)
          cases res with
          | true =>
            show entriesT t2 ++ entriesE (.cons k1 c1 rs) =
              leafInsertKV (entriesT c0 ++ entriesE (.cons k1 c1 rs)) key val
            rw [leafInsertKV_append_left _ val hrestKeys]
            rw [show entriesT t2 = leafInsertKV (entriesT c0) key val from by
              simpa using hent]
          | false =>
            show entriesT t2 ++ entriesE (.cons k1 c1 rs) =
              entriesT c0 ++ entriesE (.cons k1 c1 rs)
            rw [show entriesT t2 = entriesT c0 from by simpa using hent]
      | some p =>
        obtain ⟨sep, nc⟩ := p
        obtain ⟨hres, hfindc, hTl, hTr, hsLB, hsUB, hentc⟩ := ihc.2 sep nc rfl
        have hsepk1 : sep < k1 := inUB_some.mp hsUB
        simp only [insertT, insertE, if_pos hk, hrc]
        have hauxv : insertToRight (.cons k0 t2 (.cons k1 c1 rs)) sep nc =
            .cons k0 t2 (.cons sep nc (.cons k1 c1 rs)) := by
          show Entries.cons k0 t2 (insertToRightAux (.cons k1 c1 rs) sep nc) = _
          rw [show insertToRightAux (.cons k1 c1 rs) sep nc =
              .cons sep nc (.cons k1 c1 rs) from by
            simp only [insertToRightAux]
            rw [if_pos hsepk1]]
        refine nodeFinish lM iM key val hiM lo hi pid
          (.cons k0 c0 (.cons k1 c1 rs))
          (insertToRight (.cons k0 t2 (.cons k1 c1 rs)) sep nc) res al2 _ rfl
          hres ?_ ?_ ?_ ?_ ?_
        · rw [hauxv]
          exact GWF_cons.mpr ⟨hTl, EWF_cons.mpr ⟨hTr, hrest⟩⟩
        · rw [hauxv]
          exact ⟨k0, t2, _, rfl⟩
        · rw [hauxv]
          simp only [Entries.size] at hsz ⊢
          omega
        · rw [hauxv]
          show entriesT t2 ++ (entriesT nc ++ entriesE (.cons k1 c1 rs)) =
            leafInsertKV (entriesT c0 ++ entriesE (.cons k1 c1 rs)) key val
          rw [leafInsertKV_append_left _ val hrestKeys, ← hentc,
            List.append_assoc]
        · show leafFind (entriesT c0 ++ entriesE (.cons k1 c1 rs)) key = none
          rw [leafFind_append_right_none _ hfindRest]
          exact hfindc
    · have hk1le : k1 ≤ key := by omega
      obtain ⟨hc1, hrs⟩ := EWF_cons.mp hrest
      have ihe := insertE_spec lM iM key val hlM hiM hi k1 c1 rs alloc hrest
        hk1le hhi
      rcases hrc : insertE lM iM key val (.cons k1 c1 rs) alloc
        with ⟨res, es2, spl, al2⟩
      rw [hrc] at ihe
      dsimp only at ihe
      have hchKeys : ∀ p ∈ entriesT c0, p.1 < k1 :=
        fun p hp =>
          inUB_some.mp ((twf_entries lM iM lo (some k1) c0 hc0).2 p hp).2
      have hfindCh : leafFind (entriesT c0) key = none := by
        rw [leafFind_eq_none_iff]
        intro hmem
        obtain ⟨p, hp, hpk⟩ := List.mem_map.mp hmem
        have := hchKeys p hp
        omega
      have hchNotGt : ∀ p ∈ entriesT c0, ¬(p.1 > key) := by
        intro p hp
        have := hchKeys p hp
        omega
      cases spl with
      | none =>
        obtain ⟨hiff, hshape, hEwf, hsize, hent⟩ := ihe.1 rfl
        obtain ⟨c2, r2, hes2⟩ := hshape
        simp only [insertT, insertE, if_neg hk, hrc]
        refine ⟨fun _ => ⟨?_, ?_, ?_⟩, fun sep nc h => nomatch h⟩
        · show res = true ↔
            leafFind (entriesT c0 ++ entriesE (.cons k1 c1 rs)) key = none
          rw [leafFind_append_left_none _ hfindCh]
          exact hiff
        · show TWF lM iM lo hi (.node pid (.cons k0 c0 es2))
          refine TWF_node_cons.mpr ⟨?_, hEwf, ?_⟩
          · rw [hes2]
            exact hc0
          · simp only [Entries.size] at hsz hsize ⊢
            omega
        · show entriesT c0 ++ entriesE es2 =
            if res then
              leafInsertKV (entriesT c0 ++ entriesE (.cons k1 c1 rs)) key val
            else entriesT c0 ++ entriesE (.cons k1 c1 rs)
          cases res with
          | true =>
            show entriesT c0 ++ entriesE es2 =
              leafInsertKV (entriesT c0 ++ entriesE (.cons k1 c1 rs)) key val
            rw [leafInsertKV_append_right _ val hchNotGt]
            rw [show entriesE es2 =
                leafInsertKV (entriesE (.cons k1 c1 rs)) key val from by
              simpa using hent]
          | false =>
            show entriesT c0 ++ entriesE es2 =
              entriesT c0 ++ entriesE (.cons k1 c1 rs)
            rw [show entriesE es2 = entriesE (.cons k1 c1 rs) from by
              simpa using hent]
      | some p =>
        obtain ⟨sep, nc⟩ := p
        obtain ⟨hres, hfindR, hk1sep, hsUB, hshape, hEwf, hsize, hent⟩ :=
          ihe.2 sep nc rfl
        obtain ⟨c2, r2, hes2⟩ := hshape
        simp only [insertT, insertE, if_neg hk, hrc]
        have hauxv : insertToRight (.cons k0 c0 es2) sep nc =
            .cons k0 c0 (insertToRightAux es2 sep nc) := rfl
        refine nodeFinish lM iM key val hiM lo hi pid
          (.cons k0 c0 (.cons k1 c1 rs))
          (insertToRight (.cons k0 c0 es2) sep nc) res al2 _ rfl hres
          ?_ ?_ ?_ ?_ ?_
        · rw [hauxv]
          refine GWF_cons.mpr ⟨?_, hEwf⟩
          rw [hes2]
          exact hc0
        · rw [hauxv]
          exact ⟨k0, c0, _, rfl⟩
        · rw [hauxv]
          simp only [Entries.size] at hsz hsize ⊢
          omega
        · rw [hauxv]
          show entriesT c0 ++ entriesE (insertToRightAux es2 sep nc) =
            leafInsertKV (entriesT c0 ++ entriesE (.cons k1 c1 rs)) key val
          rw [hent, leafInsertKV_append_right _ val hchNotGt]
        · show leafFind (entriesT c0 ++ entriesE (.cons k1 c1 rs)) key = none
          rw [leafFind_append_left_none _ hfindCh]
          exact hfindR
termination_by lo hi t alloc h1 h2 h3 => sizeOf t

/-- The walk of `insertE` along the entries of an internal page from
index 1 on. -/
theorem insertE_spec (lM iM : Nat) (key val : Int) (hlM : 1 ≤ lM) (hiM : 1 ≤ iM) :
    ∀ (hi : Option Int) (kh : Int) (ch : BTree) (rest : Entries) (alloc : Int),
    EWF lM iM hi (.cons kh ch rest) → kh ≤ key → inUB hi key →
    ((insertE lM iM key val (.cons kh ch rest) alloc).2.2.1 = none →
      ESpecNoSplit lM iM key val hi kh (.cons kh ch rest)
        (insertE lM iM key val (.cons kh ch rest) alloc).1
        (insertE lM iM key val (.cons kh ch rest) alloc).2.1) ∧
    (∀ sep nc,
      (insertE lM iM key val (.cons kh ch rest) alloc).2.2.1 = some (sep, nc) →
      ESpecSplit lM iM key val hi kh (.cons kh ch rest)
        (insertE lM iM key val (.cons kh ch rest) alloc).1
        (insertToRightAux
          (insertE lM iM key val (.cons kh ch rest) alloc).2.1 sep nc)
        sep)
  | hi, kh, ch, .nil, alloc, hwf, hkh, hhi => by
    obtain ⟨hch, -⟩ := EWF_cons.mp hwf
    have ihc := insertT_spec lM iM key val hlM hiM (some kh) hi ch alloc hch
      hkh hhi
    rcases hrc : insertT lM iM key val ch alloc with ⟨res, t2, spl, al2⟩
    rw [hrc] at ihc
    dsimp only at ihc
    cases spl with
    | none =>
      obtain ⟨hiff, hTwf, hent⟩ := ihc.1 rfl
      simp only [insertE, hrc]
      refine ⟨fun _ => ⟨?_, ⟨t2, .nil, rfl⟩, ?_, rfl, ?_⟩,
        fun sep nc h => nomatch h⟩
      · show res = true ↔ leafFind (entriesT ch ++ entriesE Entries.nil) key = none
        simp only [show entriesE Entries.nil = ([] : List (Int × Int)) from rfl,
          List.append_nil]
        exact hiff
      · exact EWF_cons.mpr ⟨hTwf, EWF_nil⟩
      · show entriesT t2 ++ entriesE Entries.nil =
          if res then
            leafInsertKV (entriesT ch ++ entriesE Entries.nil) key val
          else entriesT ch ++ entriesE Entries.nil
        simp only [show entriesE Entries.nil = ([] : List (Int × Int)) from rfl,
          List.append_nil]
        exact hent
    | some p =>
      obtain ⟨sep, nc⟩ := p
      obtain ⟨hres, hfindc, hTl, hTr, hsLB, hsUB, hentc⟩ := ihc.2 sep nc rfl
      have hkhsep : kh < sep := strictLB_some.mp hsLB
      simp only [insertE, hrc]
      refine ⟨fun h => (nomatch h), ?_⟩
      intro sep2 nc2 hsome
      obtain ⟨h1, h2⟩ := (by simpa using hsome : sep = sep2 ∧ nc = nc2)
      subst h1
      subst h2
      have hauxv : insertToRightAux (.cons kh t2 .nil) sep nc =
          .cons kh t2 (.cons sep nc .nil) := by
        simp only [insertToRightAux]
        rw [if_neg (by omega : ¬ kh > sep)]
      rw [hauxv]
      refine ⟨hres, ?_, hkhsep, hsUB, ⟨t2, _, rfl⟩, ?_, rfl, ?_⟩
      · show leafFind (entriesT ch ++ entriesE Entries.nil) key = none
        simp only [show entriesE Entries.nil = ([] : List (Int × Int)) from rfl,
          List.append_nil]
        exact hfindc
      · exact EWF_cons.mpr ⟨hTl, EWF_cons.mpr ⟨hTr, EWF_nil⟩⟩
      · show entriesT t2 ++ (entriesT nc ++ entriesE Entries.nil) =
          leafInsertKV (entriesT ch ++ entriesE Entries.nil) key val
        simp only [show entriesE Entries.nil = ([] : List (Int × Int)) from rfl,
          List.append_nil]
        exact hentc
  | hi, kh, ch, .cons k1 c1 rs, alloc, hwf, hkh, hhi => by
    obtain ⟨hch, hrest2⟩ := EWF_cons.mp hwf
    by_cases hk : k1 > key
    · have ihc := insertT_spec lM iM key val hlM hiM (some kh) (some k1) ch
        alloc hch hkh hk
      rcases hrc : insertT lM iM key val ch alloc with ⟨res, t2, spl, al2⟩
      rw [hrc] at ihc
      dsimp only at ihc
      have hrestKeys : ∀ p ∈ entriesE (.cons k1 c1 rs), key < p.1 := by
        intro p hp
        have hb := gwf_entries lM iM (some k1) hi (.cons k1 c1 rs)
          (EWF_iff_GWF.mp hrest2) p hp
        have hle := inLB_some.mp hb.1
        omega
      have hfindRest : leafFind (entriesE (.cons k1 c1 rs)) key = none := by
        rw [leafFind_eq_none_iff]
        intro hmem
        obtain ⟨p, hp, hpk⟩ := List.mem_map.mp hmem
        have := hrestKeys p hp
        omega
      cases spl with
      | none =>
        obtain ⟨hiff, hTwf, hent⟩ := ihc.1 rfl
        simp only [insertE, if_pos hk, hrc]
        refine ⟨fun _ => ⟨?_, ⟨t2, _, rfl⟩, ?_, rfl, ?_⟩,
          fun sep nc h => nomatch h⟩
        · show res = true ↔
            leafFind (entriesT ch ++ entriesE (.cons k1 c1 rs)) key = none
          rw [leafFind_append_right_none _ hfindRest]
          exact hiff
        · exact EWF_cons.mpr ⟨hTwf, hrest2⟩
        · show entriesT t2 ++ entriesE (.cons k1 c1 rs) =
            if res then
              leafInsertKV (entriesT ch ++ entriesE (.cons k1 c1 rs)) key val
            else entriesT ch ++ entriesE (.cons k1 c1 rs)
          cases res with
          | true =>
            show entriesT t2 ++ entriesE (.cons k1 c1 rs) =
              leafInsertKV (entriesT ch ++ entriesE (.cons k1 c1 rs)) key val
            rw [leafInsertKV_append_left _ val hrestKeys]
            rw [show entriesT t2 = leafInsertKV (entriesT ch) key val from by
              simpa using hent]
          | false =>
            show entriesT t2 ++ entriesE (.cons k1 c1 rs) =
              entriesT ch ++ entriesE (.cons k1 c1 rs)
            rw [show entriesT t2 = entriesT ch from by simpa using hent]
      | some p =>
        obtain ⟨sep, nc⟩ := p
        obtain ⟨hres, hfindc, hTl, hTr, hsLB, hsUB, hentc⟩ := ihc.2 sep nc rfl
        have hsepk1 : sep < k1 := inUB_some.mp hsUB
        have hkhsep : kh < sep := strictLB_some.mp hsLB
        simp only [insertE, if_pos hk, hrc]
        refine ⟨fun h => (nomatch h), ?_⟩
        intro sep2 nc2 hsome
        obtain ⟨h1, h2⟩ := (by simpa using hsome : sep = sep2 ∧ nc = nc2)
        subst h1
        subst h2
        have hauxv : insertToRightAux (.cons kh t2 (.cons k1 c1 rs)) sep nc =
            .cons kh t2 (.cons sep nc (.cons k1 c1 rs)) := by
          simp only [insertToRightAux]
          rw [if_neg (by omega : ¬ kh > sep), if_pos hsepk1]
        rw [hauxv]
        refine ⟨hres, ?_, hkhsep,
          inUB_mono (le_of_lt hsepk1) (ewf_cons_key_ub hrest2),
          ⟨t2, _, rfl⟩, ?_, ?_, ?_⟩
        · show leafFind (entriesT ch ++ entriesE (.cons k1 c1 rs)) key = none
          rw [leafFind_append_right_none _ hfindRest]
          exact hfindc
        · exact EWF_cons.mpr ⟨hTl, EWF_cons.mpr ⟨hTr, hrest2⟩⟩
        · show (Entries.cons kh t2 (.cons sep nc (.cons k1 c1 rs))).size =
            (Entries.cons kh ch (.cons k1 c1 rs)).size + 1
          simp only [Entries.size]
          omega
        · show entriesT t2 ++ (entriesT nc ++ entriesE (.cons k1 c1 rs)) =
            leafInsertKV (entriesT ch ++ entriesE (.cons k1 c1 rs)) key val
          rw [leafInsertKV_append_left _ val hrestKeys, ← hentc,
            List.append_assoc]
    · have hk1le : k1 ≤ key := by omega
      have ihe := insertE_spec lM iM key val hlM hiM hi k1 c1 rs alloc hrest2
        hk1le hhi
      rcases hrc : insertE lM iM key val (.cons k1 c1 rs) alloc
        with ⟨res, es2, spl, al2⟩
      rw [hrc] at ihe
      dsimp only at ihe
      have hkhk1 : kh < k1 := strictLB_some.mp (twf_strict_sep hch)
      have hchKeys : ∀ p ∈ entriesT ch, p.1 < k1 :=
        fun p hp =>
          inUB_some.mp ((twf_entries lM iM (some kh) (some k1) ch hch).2 p hp).2
      have hfindCh : leafFind (entriesT ch) key = none := by
        rw [leafFind_eq_none_iff]
        intro hmem
        obtain ⟨p, hp, hpk⟩ := List.mem_map.mp hmem
        have := hchKeys p hp
        omega
      have hchNotGt : ∀ p ∈ entriesT ch, ¬(p.1 > key) := by
        intro p hp
        have := hchKeys p hp
        omega
      cases spl with
      | none =>
        obtain ⟨hiff, hshape, hEwf, hsize, hent⟩ := ihe.1 rfl
        obtain ⟨c2, r2, hes2⟩ := hshape
        simp only [insertE, if_neg hk, hrc]
        refine ⟨fun _ => ⟨?_, ⟨ch, es2, rfl⟩, ?_, ?_, ?_⟩,
          fun sep nc h => nomatch h⟩
        · show res = true ↔
            leafFind (entriesT ch ++ entriesE (.cons k1 c1 rs)) key = none
          rw [leafFind_append_left_none _ hfindCh]
          exact hiff
        · refine EWF_cons.mpr ⟨?_, hEwf⟩
          rw [hes2]
          exact hch
        · show (Entries.cons kh ch es2).size =
            (Entries.cons kh ch (.cons k1 c1 rs)).size
          simp only [Entries.size] at hsize ⊢
          omega
        · show entriesT ch ++ entriesE es2 =
            if res then
              leafInsertKV (entriesT ch ++ entriesE (.cons k1 c1 rs)) key val
            else entriesT ch ++ entriesE (.cons k1 c1 rs)
          cases res with
          | true =>
            show entriesT ch ++ entriesE es2 =
              leafInsertKV (entriesT ch ++ entriesE (.cons k1 c1 rs)) key val
            rw [leafInsertKV_append_right _ val hchNotGt]
            rw [show entriesE es2 =
                leafInsertKV (entriesE (.cons k1 c1 rs)) key val from by
              simpa using hent]
          | false =>
            show entriesT ch ++ entriesE es2 =
              entriesT ch ++ entriesE (.cons k1 c1 rs)
            rw [show entriesE es2 = entriesE (.cons k1 c1 rs) from by
              simpa using hent]
      | some p =>
        obtain ⟨sep, nc⟩ := p
        obtain ⟨hres, hfindR, hk1sep, hsUB, hshape, hEwf, hsize, hent⟩ :=
          ihe.2 sep nc rfl
        obtain ⟨c2, r2, hes2⟩ := hshape
        simp only [insertE, if_neg hk, hrc]
        refine ⟨fun h => (nomatch h), ?_⟩
        intro sep2 nc2 hsome
        obtain ⟨h1, h2⟩ := (by simpa using hsome : sep = sep2 ∧ nc = nc2)
        subst h1
        subst h2
        have hauxv : insertToRightAux (.cons kh ch es2) sep nc =
            .cons kh ch (insertToRightAux es2 sep nc) := by
          simp only [insertToRightAux]
          rw [if_neg (by omega : ¬ kh > sep)]
        rw [hauxv]
        refine ⟨hres, ?_, by omega, hsUB, ⟨ch, _, rfl⟩, ?_, ?_, ?_⟩
        · show leafFind (entriesT ch ++ entriesE (.cons k1 c1 rs)) key = none
          rw [leafFind_append_left_none _ hfindCh]
          exact hfindR
        · refine EWF_cons.mpr ⟨?_, hEwf⟩
          rw [hes2]
          exact hch
        · show (Entries.cons kh ch (insertToRightAux es2 sep nc)).size =
            (Entries.cons kh ch (.cons k1 c1 rs)).size + 1
          simp only [Entries.size] at hsize ⊢
          omega
        · show entriesT ch ++ entriesE (insertToRightAux es2 sep nc) =
            leafInsertKV (entriesT ch ++ entriesE (.cons k1 c1 rs)) key val
          rw [hent, leafInsertKV_append_right _ val hchNotGt]
termination_by hi kh ch rest alloc h1 h2 h3 => sizeOf ch + sizeOf rest
end

/-! ### B+-tree: insert and get at the root -/

/-- `BPlusTree::Insert` at the root: the returned flag reflects presence
of the key, well-formedness is preserved (a root split grows a fresh
two-child root), and on success the flat entry list undergoes sorted
insertion. -/
theorem bplus_insert_root : ∀ (t : BPlusTree), t.WF → ∀ (key val : Int),
    ((t.insert key val).1 = true ↔ leafFind t.entries key = none) ∧
    ((t.insert key val).2).WF ∧
    ((t.insert key val).2).entries =
      (if (t.insert key val).1 then leafInsertKV t.entries key val
       else t.entries)
  | ⟨none, lM, iM, na⟩, hwf, key, val => by
    obtain ⟨hlM, hiM, -⟩ := hwf
    dsimp only at hlM hiM
    have hstep : insertT lM iM key val (.leaf na [] INVALID_PAGE_ID) (na + 1) =
        (true, .leaf na [(key, val)] INVALID_PAGE_ID, none, na + 1) := by
      simp only [insertT]
      rw [if_neg (by simp [leafFind])]
      rw [if_neg (by simp [leafInsertKV]; omega)]
      rfl
    have hval : BPlusTree.insert ⟨none, lM, iM, na⟩ key val =
        (true, ⟨some (.leaf na [(key, val)] INVALID_PAGE_ID), lM, iM, na + 1⟩) := by
      simp only [BPlusTree.insert, hstep]
    rw [hval]
    refine ⟨iff_of_true rfl rfl, ⟨hlM, hiM, ?_⟩, rfl⟩
    refine TWF_leaf.mpr ⟨by simp, ?_, by simpa using hlM, by simp⟩
    intro p hp
    exact ⟨trivial, trivial⟩
  | ⟨some r, lM, iM, na⟩, hwf, key, val => by
    obtain ⟨hlM, hiM, hroot⟩ := hwf
    dsimp only at hlM hiM hroot
    have spec := insertT_spec lM iM key val hlM (by omega) none none r na hroot
      trivial trivial
    rcases hrc : insertT lM iM key val r na with ⟨res, t2, spl, al2⟩
    rw [hrc] at spec
    dsimp only at spec
    cases spl with
    | none =>
      obtain ⟨hiff, hTwf, hent⟩ := spec.1 rfl
      have hval : BPlusTree.insert ⟨some r, lM, iM, na⟩ key val =
          (res, ⟨some t2, lM, iM, al2⟩) := by
        simp only [BPlusTree.insert, hrc]
      rw [hval]
      exact ⟨hiff, ⟨hlM, hiM, hTwf⟩, hent⟩
    | some p =>
      obtain ⟨sep, nc⟩ := p
      obtain ⟨hres, hfindc, hTl, hTr, hsLB, hsUB, hentc⟩ := spec.2 sep nc rfl
      have hval : BPlusTree.insert ⟨some r, lM, iM, na⟩ key val =
          (res, ⟨some (.node al2 (.cons 0 t2 (.cons sep nc .nil))), lM, iM,
            al2 + 1⟩) := by
        simp only [BPlusTree.insert, hrc]
      rw [hval]
      have hres2 : res = true := hres
      subst hres2
      refine ⟨iff_of_true rfl hfindc, ⟨hlM, hiM, ?_⟩, ?_⟩
      · refine TWF_node_cons.mpr ⟨hTl, EWF_cons.mpr ⟨hTr, EWF_nil⟩, ?_⟩
        simp only [Entries.size]
        omega
      · show entriesT t2 ++ (entriesT nc ++ entriesE Entries.nil) =
          if true then leafInsertKV (entriesT r) key val else entriesT r
        simp only [show entriesE Entries.nil = ([] : List (Int × Int)) from rfl,
          List.append_nil, if_pos]
        exact hentc

/-- **C2.** For every well-formed B+-tree and every key `k` not present
in it, `Insert(k, v)` returns `true`, `GetValue(k)` on the resulting tree
returns `v`, and a second `Insert` of `k` (with any value) returns
`false`. -/
theorem bplus_insert_get (t : BPlusTree) (hwf : t.WF) (k v : Int)
    (habs : k ∉ t.entries.map Prod.fst) :
    (t.insert k v).1 = true ∧
    ((t.insert k v).2).getValue k = some v ∧
    ∀ w, (((t.insert k v).2).insert k w).1 = false := by
  obtain ⟨hiff, hwf2, hent⟩ := bplus_insert_root t hwf k v
  have hfind : leafFind t.entries k = none := (leafFind_eq_none_iff _ _).mpr habs
  have hres : (t.insert k v).1 = true := hiff.mpr hfind
  have hent2 : ((t.insert k v).2).entries = leafInsertKV t.entries k v := by
    rw [hent, if_pos hres]
  have hget : ((t.insert k v).2).getValue k = some v := by
    rw [getValue_eq_leafFind _ hwf2 k, hent2]
    exact leafFind_leafInsertKV_self v habs
  refine ⟨hres, hget, ?_⟩
  intro w
  obtain ⟨hiff3, -, -⟩ := bplus_insert_root ((t.insert k v).2) hwf2 k w
  have hfind3 : leafFind ((t.insert k v).2).entries k = some v := by
    rw [hent2]
    exact leafFind_leafInsertKV_self v habs
  cases hres3 : (((t.insert k v).2).insert k w).1 with
  | false => rfl
  | true =>
    have hcontra := hiff3.mp hres3
    rw [hfind3] at hcontra
    exact absurd hcontra (by simp)

/-- Witness for C2: inserting key 3 into the index holding keys 2 and 4
succeeds, `GetValue 3` then returns 30, and a second insert of 3 is
rejected. -/
theorem bplus_insert_get_witness :
    (c2Tree.WF ∧ (3 : Int) ∉ c2Tree.entries.map Prod.fst) ∧
    ((c2Tree.insert 3 30).1 = true ∧
     ((c2Tree.insert 3 30).2).getValue 3 = some 30 ∧
     (((c2Tree.insert 3 30).2).insert 3 99).1 = false) := by
  have hTWF : TWF 4 4 none none (.leaf 1 [(2, 20), (4, 40)] (-1)) := by
    unfold TWF
    exact ⟨by decide, by decide, by decide, by decide⟩
  have hwf : c2Tree.WF := ⟨by decide, by decide, hTWF⟩
  have habs : (3 : Int) ∉ c2Tree.entries.map Prod.fst := by decide
  have h := bplus_insert_get c2Tree hwf 3 30 habs
  exact ⟨⟨hwf, habs⟩, h.1, h.2.1, h.2.2 99⟩

end BusTub
